import Mathlib

/-!
Verification of the trace interpretation engine of the RAG Debug Toolkit
(`src/extension.ts`), shallowly embedded in Lean 4.

JSON-like runtime values are modelled by the inductive type `Json`
(numbers as rationals; `undefined` is represented by `Option.none` at use
sites).  JavaScript objects are modelled as association lists of
key/value pairs in insertion order; objects produced by `JSON.parse`
always have pairwise-distinct keys, which is captured by the `Json.WF`
predicate where it matters.
-/

/-- JSON-like value (model of the loosely typed runtime values the
extension manipulates).  Numbers are modelled as rationals. -/
inductive Json where
  | null : Json
  | bool : Bool → Json
  | num : ℚ → Json
  | str : String → Json
  | arr : List Json → Json
  | obj : List (String × Json) → Json

/-- A trace event is a loosely typed JS object (`type TraceEvent = Record<string, any>`). -/
abbrev TraceEvent := List (String × Json)

/-- First binding of key `k` in an object's field list (JS property read;
`none` models `undefined`). -/
def getField : List (String × Json) → String → Option Json
  | [], _ => none
  | (k', v) :: rest, k => if k' = k then some v else getField rest k

/-- `Object.keys` of an object field list (insertion order). -/
def objKeys (fields : List (String × Json)) : List String :=
  fields.map Prod.fst

/-! ### Character-level string helpers

Lean's built-in `String.trim`/`toLower`/… are not kernel-reducible, so the
few string primitives the source uses are modelled directly on character
lists (ASCII case folding; whitespace = space/tab/CR/LF). -/

/-- Whitespace for `String.prototype.trim` (common ASCII whitespace). -/
def isWsChar (c : Char) : Bool :=
  c = ' ' || c = '\t' || c = '\n' || c = '\r'

/-- `s.trim()` on a character list: drop whitespace at both ends. -/
def trimChars (l : List Char) : List Char :=
  ((l.dropWhile isWsChar).reverse.dropWhile isWsChar).reverse

/-- JS `s.trim()`. -/
def jsTrim (s : String) : String := ⟨trimChars s.data⟩

/-- ASCII lower-casing of one character (`toLowerCase`). -/
def lowerChar (c : Char) : Char :=
  if 'A' ≤ c ∧ c ≤ 'Z' then Char.ofNat (c.toNat + 32) else c

/-- ASCII upper-casing of one character (`toUpperCase`). -/
def upperChar (c : Char) : Char :=
  if 'a' ≤ c ∧ c ≤ 'z' then Char.ofNat (c.toNat - 32) else c

/-- JS `s.toLowerCase()` (ASCII model). -/
def jsToLower (s : String) : String := ⟨s.data.map lowerChar⟩

/-- JS `s.toUpperCase()` (ASCII model). -/
def jsToUpper (s : String) : String := ⟨s.data.map upperChar⟩

/-- JS string length (`s.length`); code points model of UTF-16 units. -/
def jsLength (s : String) : ℕ := s.data.length

/-- JS `s.substring(0, n)`. -/
def jsTake (s : String) (n : ℕ) : String := ⟨s.data.take n⟩

/-- Lexicographic `≤` on characters by code point, as used by JS string
comparison / default `Array.sort` on strings. -/
def charListLe : List Char → List Char → Bool
  | [], _ => true
  | _ :: _, [] => false
  | a :: as, b :: bs =>
    if a.toNat < b.toNat then true
    else if b.toNat < a.toNat then false
    else charListLe as bs

/-- Lexicographic string `≤` (JS default sort order on key strings). -/
def keyLe (a b : String) : Bool := charListLe a.data b.data

/-- `asNonEmptyString`: value is a string whose trim is non-empty → the
trimmed string, else `null`. -/
def asNonEmptyString : Option Json → Option String
  | some (.str s) => let t := jsTrim s; if t = "" then none else some t
  | _ => none

/-! ### A size measure on `Json` used for termination of `deepEqual` -/

mutual

/-- Structural size of a `Json` value. -/
def Json.weight : Json → ℕ
  | .arr xs => 1 + Json.weightList xs
  | .obj fs => 1 + Json.weightFields fs
  | _ => 1

/-- Structural size of a list of `Json` values. -/
def Json.weightList : List Json → ℕ
  | [] => 0
  | x :: xs => 1 + Json.weight x + Json.weightList xs

/-- Structural size of an object's field list. -/
def Json.weightFields : List (String × Json) → ℕ
  | [] => 0
  | (_, v) :: fs => 1 + Json.weight v + Json.weightFields fs

end

theorem Json.weightFields_eq_sum (l : List (String × Json)) :
    Json.weightFields l = (l.map (fun p => 1 + Json.weight p.2)).sum := by
  induction l with
  | nil => rfl
  | cons p rest ih => cases p; simp [Json.weightFields, ih]

/-- The field-sorting relation of `deepEqual`/`canon`: compare entries by
their key. -/
def fieldLe (p q : String × Json) : Prop := keyLe p.1 q.1 = true

instance : DecidableRel fieldLe := fun p q => by unfold fieldLe; infer_instance

/-- Sorting an object's fields by key.  JS `Array.sort` is a stable sort
under the comparator, hence equal to insertion sort by the same key
order; the source sorts the key array and reads `a[key]`, which on the
duplicate-free key lists of real JS objects is the same as sorting the
entry list. -/
def sortFieldsByKey (fs : List (String × Json)) : List (String × Json) :=
  List.insertionSort fieldLe fs

theorem weightFields_sortFieldsByKey (fs : List (String × Json)) :
    Json.weightFields (sortFieldsByKey fs) = Json.weightFields fs := by
  rw [Json.weightFields_eq_sum, Json.weightFields_eq_sum]
  exact ((List.perm_insertionSort _ fs).map _).sum_eq

mutual

/-- `deepEqual` from the source: primitives by value, arrays element-wise
(order-sensitive), objects by sorted key sequence then per-key value
equality (key-order-insensitive).  `null` only equals `null`; differing
runtime types are unequal. -/
def deepEqual : Json → Json → Bool
  | .null, .null => true
  | .bool a, .bool b => a == b
  | .num a, .num b => a == b
  | .str a, .str b => a == b
  | .arr xs, .arr ys => deepEqualList xs ys
  | .obj fa, .obj fb => deepEqualFields (sortFieldsByKey fa) (sortFieldsByKey fb)
  | _, _ => false
termination_by a b => Json.weight a + Json.weight b
decreasing_by
  · simp [Json.weight, Json.weightList]; omega
  · simp [Json.weight, weightFields_sortFieldsByKey]; omega

/-- Element-wise array comparison (length then recursive values). -/
def deepEqualList : List Json → List Json → Bool
  | [], [] => true
  | x :: xs, y :: ys => deepEqual x y && deepEqualList xs ys
  | _, _ => false
termination_by l1 l2 => Json.weightList l1 + Json.weightList l2
decreasing_by
  · simp [Json.weight, Json.weightList]; omega
  · simp [Json.weightList]; omega

/-- Pairwise comparison of key-sorted field lists: the i-th keys must
coincide and the attached values must be `deepEqual`. -/
def deepEqualFields : List (String × Json) → List (String × Json) → Bool
  | [], [] => true
  | (k1, v1) :: r1, (k2, v2) :: r2 =>
    k1 == k2 && deepEqual v1 v2 && deepEqualFields r1 r2
  | _, _ => false
termination_by l1 l2 => Json.weightFields l1 + Json.weightFields l2
decreasing_by
  · simp [Json.weight, Json.weightFields]; omega
  · simp [Json.weightFields]; omega

end

/-- `deepEqual` lifted to possibly-missing values: `undefined === undefined`
is `true`, `undefined` never deep-equals a present value. -/
def deepEqualOpt : Option Json → Option Json → Bool
  | some a, some b => deepEqual a b
  | none, none => true
  | _, _ => false

/-- `truncate(s, maxLen)` from the source: strings longer than `maxLen`
are cut off and a marker stating the original length is appended. -/
def truncate (s : String) (maxLen : ℕ) : String :=
  if jsLength s ≤ maxLen then s
  else jsTake s maxLen ++ "\n... [truncated, len=" ++ toString (jsLength s) ++ "]"

/-- `summarizeValue` from the source: strings truncated at 5000; arrays
longer than 20 collapse to `{_type: "array", count}`; objects with more
than 30 keys collapse to `{_type: "object", keys}`; other values pass
through unchanged. -/
def summarizeValue : Json → Json
  | .null => .null
  | .str s => .str (truncate s 5000)
  | .num q => .num q
  | .bool b => .bool b
  | .arr xs => if xs.length ≤ 20 then .arr xs else .obj [("_type", .str "array"), ("count", .num xs.length)]
  | .obj fs =>
    if (objKeys fs).length ≤ 30 then .obj fs
    else .obj [("_type", .str "object"), ("keys", .num (objKeys fs).length)]

/-- JS truthy object test (`v && typeof v === "object"`): objects and
arrays qualify, `null` and primitives do not. -/
def isTruthyObject : Json → Bool
  | .obj _ => true
  | .arr _ => true
  | _ => false

/-- `Object.keys` for any JS value the diff engine can receive: field
names for objects, index strings for arrays. -/
def jsKeys : Json → List String
  | .obj fs => objKeys fs
  | .arr xs => (List.range xs.length).map toString
  | _ => []

/-- JS property read `v[k]` for objects and arrays (`none` = `undefined`). -/
def jsGet : Json → String → Option Json
  | .obj fs, k => getField fs k
  | .arr xs, k => (xs.enum.find? (fun p => toString p.1 = k)).map Prod.snd
  | _, _ => none

/-- Dotted property read `v.k` for the non-numeric literal keys the
source reads through optional chaining (`step.id`, `timing.duration_ms`,
`out.next_step_id`, …).  On arrays and primitives such keys are always
`undefined`; on objects it is the field read. -/
def objField : Json → String → Option Json
  | .obj fs, k => getField fs k
  | _, _ => none

/-- `new Set([...keys(prev), ...keys(next)])`: first-occurrence union. -/
def unionKeys (ka kb : List String) : List String :=
  (ka ++ kb).foldl (fun l x => if x ∈ l then l else l ++ [x]) []

/-- One key of the diff loop: emit `(key, from, to)` with summarized
values when the two property reads are not deep-equal. -/
def diffEntry (prevState nextState : Json) (k : String) :
    Option (String × Option Json × Option Json) :=
  let a := jsGet prevState k
  let b := jsGet nextState k
  if deepEqualOpt a b then none
  else some (k, a.map summarizeValue, b.map summarizeValue)

/-- `diffTopLevel(prev, next)`: for each key of the union of top-level
keys whose values are not deep-equal, emit `(key, from, to)` with
summarized values; empty if either input is not a (truthy) object.
Output entries are in key-union insertion order, mirroring the JS
object's key insertion order. -/
def diffTopLevel (prevState nextState : Json) : List (String × Option Json × Option Json) :=
  if isTruthyObject prevState && isTruthyObject nextState then
    (unionKeys (jsKeys prevState) (jsKeys nextState)).filterMap (diffEntry prevState nextState)
  else []

/-- The nine state-snapshot keys removed by `stripStateFields`. -/
def stateFieldKeys : List String :=
  ["state_before", "state_after", "stateBefore", "stateAfter",
   "pipeline_state_before", "pipeline_state_after",
   "pipelineStateBefore", "pipelineStateAfter", "state"]

/-- `stripStateFields`: copy every field of the event except the nine
state keys, preserving order and values. -/
def stripStateFields (ev : TraceEvent) : TraceEvent :=
  ev.filter (fun p => ¬ stateFieldKeys.contains p.1)


/-! ### Event parser (`parseTraceEventsFromText`)

`JSON.parse` and `Date.parse` are host primitives; the engine is modelled
as a function of an abstract parser `jp : String → Option Json`
(resp. `dp : String → Option ℚ` for `Date.parse`), so every theorem holds
for any actual parser behaviour. -/

/-- Split on `/\r?\n/`: line breaks are `\n` optionally preceded by `\r`. -/
def splitLinesAux : List Char → List Char → List (List Char)
  | [], acc => [acc.reverse]
  | '\r' :: '\n' :: rest, acc => acc.reverse :: splitLinesAux rest []
  | '\n' :: rest, acc => acc.reverse :: splitLinesAux rest []
  | c :: rest, acc => splitLinesAux rest (c :: acc)

/-- `text.split(/\r?\n/)`. -/
def splitLines (s : String) : List String :=
  (splitLinesAux s.data []).map (⟨·⟩)

/-- First array-valued candidate among probed fields (`Array.isArray(c)`). -/
def firstArrayCandidate : List (Option Json) → Option (List Json)
  | [] => none
  | some (.arr xs) :: _ => some xs
  | _ :: rest => firstArrayCandidate rest

/-- JSONL fallback mode: parse each non-blank line independently, keep
values of object type (JS `o && typeof o === "object"`), silently drop
lines that fail to parse. -/
def parseJsonlLines (jp : String → Option Json) (text : String) : List Json :=
  (splitLines text).filterMap (fun line =>
    let t := jsTrim line
    if t = "" then none
    else match jp t with
      | some o => if isTruthyObject o then some o else none
      | none => none)

/-- `parseTraceEventsFromText`: whole-document JSON mode (object with a
`pipeline_trace_events` / `trace_events` / `events` array field, or a raw
array), falling back to line-delimited mode. -/
def parseTraceEventsFromText (jp : String → Option Json) (text : String) : List Json :=
  if text = "" then []
  else
    match jp text with
    | some parsed =>
      match (if isTruthyObject parsed then
               firstArrayCandidate
                 [objField parsed "pipeline_trace_events",
                  objField parsed "trace_events",
                  objField parsed "events"]
             else none) with
      | some xs => xs
      | none =>
        match parsed with
        | .arr xs => xs
        | _ => parseJsonlLines jp text
    | none => parseJsonlLines jp text

/-! ### Timing reconstructor -/

/-- Per-step timing record (each field nullable). -/
structure StepTiming where
  startMs : Option ℚ
  endMs : Option ℚ
  durationMs : Option ℚ
  elapsedMs : Option ℚ
deriving DecidableEq

/-- Generic association-list read (first binding), as `Map.get`. -/
def assocGet {α : Type} : List (String × α) → String → Option α
  | [], _ => none
  | (k', v) :: rest, k => if k' = k then some v else assocGet rest k

/-- `Map.set`: overwrite in place if the key exists, else append. -/
def assocSet {α : Type} : List (String × α) → String → α → List (String × α)
  | [], k, v => [(k, v)]
  | (k', v') :: rest, k, v =>
    if k' = k then (k, v) :: rest else (k', v') :: assocSet rest k v

/-- `parseTsMs`: finite numbers are epoch seconds if `< 1e12` (converted
to ms) else already ms; strings go through `Date.parse` (modelled by
`dp`); everything else is `null`. -/
def parseTsMs (dp : String → Option ℚ) : Option Json → Option ℚ
  | some (.num q) => some (if q < 10 ^ 12 then q * 1000 else q)
  | some (.str s) => dp s
  | _ => none

/-- Field read yielding a number (`typeof v === "number"`). -/
def getNumField (ev : TraceEvent) (k : String) : Option ℚ :=
  match getField ev k with
  | some (.num q) => some q
  | _ => none

/-- Nested numeric read `ev?.k1?.k2` (`typeof === "number"`). -/
def getNestedNumField (ev : TraceEvent) (k1 k2 : String) : Option ℚ :=
  match (getField ev k1).bind (fun v => objField v k2) with
  | some (.num q) => some q
  | _ => none

/-- `getEventDurationMs`: first number among `duration_ms`, `durationMs`,
`timing.duration_ms`, `timing.durationMs`; kept only when `≥ 0`. -/
def getEventDurationMs (ev : TraceEvent) : Option ℚ :=
  let d := (getNumField ev "duration_ms") <|> (getNumField ev "durationMs") <|>
    (getNestedNumField ev "timing" "duration_ms") <|> (getNestedNumField ev "timing" "durationMs")
  match d with
  | some q => if 0 ≤ q then some q else none
  | none => none

/-- `getEventEndMs`: first parseable timestamp among the candidate fields. -/
def getEventEndMs (dp : String → Option ℚ) (ev : TraceEvent) : Option ℚ :=
  (parseTsMs dp (getField ev "t_ms")) <|>
  (parseTsMs dp (getField ev "ts_ms")) <|>
  (parseTsMs dp (getField ev "ts_utc")) <|>
  (parseTsMs dp (getField ev "ts")) <|>
  (parseTsMs dp (getField ev "timestamp")) <|>
  (parseTsMs dp (getField ev "time")) <|>
  (parseTsMs dp (getField ev "finished_at")) <|>
  (parseTsMs dp (getField ev "end_ts_utc")) <|>
  (parseTsMs dp (getField ev "end_ts"))

/-- `getEventStartMs`: explicit start-time fields, else `end - duration`
when both are known. -/
def getEventStartMs (dp : String → Option ℚ) (ev : TraceEvent) : Option ℚ :=
  let explicit :=
    (parseTsMs dp (getField ev "started_at")) <|>
    (parseTsMs dp (getField ev "start_ts_utc")) <|>
    (parseTsMs dp (getField ev "start_ts")) <|>
    (parseTsMs dp (getField ev "start_time")) <|>
    (parseTsMs dp ((getField ev "timing").bind (fun v => objField v "started_at")))
  match explicit with
  | some x => some x
  | none =>
    match getEventEndMs dp ev, getEventDurationMs ev with
    | some e, some d => some (e - d)
    | _, _ => none

/-- The step id used for consume-queue matching
(`ev?.step?.id ?? ev.step_id ?? ""`). -/
def getConsumeStepId (ev : TraceEvent) : String :=
  ((asNonEmptyString ((getField ev "step").bind (fun v => objField v "id"))) <|>
    (asNonEmptyString (getField ev "step_id"))).getD ""

/-- Build the per-step-id FIFO queue of CONSUME event end timestamps. -/
def buildConsumeQueue (dp : String → Option ℚ) (events : List TraceEvent) :
    List (String × List ℚ) :=
  events.foldl (fun q ev =>
    let kind := ((asNonEmptyString (getField ev "event_type")).map jsToUpper).getD ""
    if kind = "CONSUME" then
      let sid := (asNonEmptyString (getField ev "consumer_step_id")).getD ""
      match getEventEndMs dp ev with
      | some e =>
        if sid = "" then q
        else match assocGet q sid with
          | some l => assocSet q sid (l ++ [e])
          | none => assocSet q sid [e]
      | none => q
    else q) []

/-- `q.findIndex(v => v <= endMs)` followed by `q.splice(idx, 1)`:
extract the first queued timestamp `≤ e`, returning it and the remaining
queue. -/
def extractLe (e : ℚ) : List ℚ → Option (ℚ × List ℚ)
  | [] => none
  | v :: rest =>
    if v ≤ e then some (v, rest)
    else (extractLe e rest).map (fun p => (p.1, v :: p.2))

/-- One iteration of the timing loop: resolve one event's timing given
the running `prevEndMs` and the consume queue. -/
def stepOf (dp : String → Option ℚ) (traceStartMs : Option ℚ)
    (st : Option ℚ × List (String × List ℚ)) (ev : TraceEvent) :
    StepTiming × (Option ℚ × List (String × List ℚ)) :=
  let prevEndMs := st.1
  let queue := st.2
  let explicitDuration := getEventDurationMs ev
  let endMs := getEventEndMs dp ev
  let startMs0 := getEventStartMs dp ev
  let stepId := getConsumeStepId ev
  let consumed : Option ℚ × List (String × List ℚ) :=
    if stepId = "" then (startMs0, queue)
    else match assocGet queue stepId, endMs with
      | some q, some e =>
        if q.length ≠ 0 then
          match extractLe e q with
          | some (v, rest) => (some v, assocSet queue stepId rest)
          | none => (startMs0, queue)
        else (startMs0, queue)
      | _, _ => (startMs0, queue)
  let startMs := match consumed.1 with
    | none => prevEndMs
    | some s => some s
  let durationMs := match explicitDuration with
    | some d => some d
    | none =>
      match startMs, endMs with
      | some s, some e => if s ≤ e then some (e - s) else none
      | _, _ => none
  let elapsedMs := match traceStartMs, endMs with
    | some t, some e => some (e - t)
    | _, _ => none
  let prevEnd' := endMs <|> prevEndMs
  (⟨startMs, endMs, durationMs, elapsedMs⟩, (prevEnd', consumed.2))

/-- The `events.map` pass of `buildTraceTiming`, threading the implicit
`prevEndMs` accumulator and the consume queue. -/
def mapSteps (dp : String → Option ℚ) (traceStartMs : Option ℚ) :
    Option ℚ × List (String × List ℚ) → List TraceEvent → List StepTiming
  | _, [] => []
  | st, ev :: rest =>
    let r := stepOf dp traceStartMs st ev
    r.1 :: mapSteps dp traceStartMs r.2 rest

/-- Result of `buildTraceTiming`. -/
structure TraceTiming where
  traceStartMs : Option ℚ
  steps : List StepTiming

/-- `buildTraceTiming`: trace start = min of resolved starts (else min of
resolved ends), then one forward pass resolving each step's timing. -/
def buildTraceTiming (dp : String → Option ℚ) (events : List TraceEvent) : TraceTiming :=
  let starts := events.filterMap (getEventStartMs dp)
  let ends := events.filterMap (getEventEndMs dp)
  let traceStartMs := starts.min? <|> ends.min?
  let queue := buildConsumeQueue dp events
  ⟨traceStartMs, mapSteps dp traceStartMs (none, queue) events⟩

/-! ### Anomaly detector -/

/-- Accumulated duration statistics. -/
structure DurationStats where
  perClass : List (String × List ℚ)
  global : List ℚ

/-- `getActionClass`: `action.class` else `action_name`, with the literal
placeholder `"unknown"` mapped to the empty string. -/
def getActionClass (ev : TraceEvent) : String :=
  let raw := ((asNonEmptyString ((getField ev "action").bind (fun v => objField v "class"))) <|>
    (asNonEmptyString (getField ev "action_name"))).getD ""
  if jsToLower raw = "unknown" then "" else raw

/-- `percentile(values, p)`: element of a sorted copy at index
`max(0, min(len-1, floor((len-1)*p)))`; `0` for the empty list. -/
def percentile (values : List ℚ) (p : ℚ) : ℚ :=
  if values.length = 0 then 0
  else
    let v := List.insertionSort (· ≤ ·) values
    let idx : ℤ := max 0 (min ((v.length : ℤ) - 1) ⌊((v.length : ℚ) - 1) * p⌋)
    v.getD idx.toNat 0

/-- `allowedDurationMs`: pick the class pool when it has ≥ 6 samples, else
the global pool; no threshold when the chosen pool has < 6 samples; else
`max(150, med * 2.2, p90 * 1.25)`. -/
def allowedDurationMs (cls : String) (stats : DurationStats) : Option ℚ :=
  let classVals := (assocGet stats.perClass (jsToLower cls)).getD []
  let source := if 6 ≤ classVals.length then classVals else stats.global
  if source.length < 6 then none
  else
    let med := percentile source (1 / 2)
    let p90 := percentile source (9 / 10)
    some (max 150 (max (med * (2.2 : ℚ)) (p90 * (1.25 : ℚ))))

/-- `isStepSlow`: a step is slow iff its resolved duration strictly
exceeds the allowed duration; never slow when either is unavailable. -/
def isStepSlow (durationMs : Option ℚ) (cls : String) (stats : DurationStats) : Bool :=
  match durationMs with
  | none => false
  | some d =>
    match allowedDurationMs cls stats with
    | none => false
    | some allowed => allowed < d

/-! ### PlantUML transport encoding -/

/-- `encode6bit`: the custom 6-bit alphabet (digits, uppercase,
lowercase, `-`, `_`). -/
def encode6bit (b : ℕ) : Char :=
  if b < 10 then Char.ofNat (48 + b)
  else if b < 36 then Char.ofNat (65 + (b - 10))
  else if b < 62 then Char.ofNat (97 + (b - 36))
  else if b = 62 then '-'
  else if b = 63 then '_'
  else '?'

/-- `append3bytes`: pack three bytes into four 6-bit groups. -/
def append3bytes (b1 b2 b3 : ℕ) : String :=
  let c1 := b1 >>> 2
  let c2 := ((b1 &&& 0x3) <<< 4) ||| (b2 >>> 4)
  let c3 := ((b2 &&& 0xf) <<< 2) ||| (b3 >>> 6)
  let c4 := b3 &&& 0x3f
  ⟨[encode6bit (c1 &&& 0x3f), encode6bit (c2 &&& 0x3f),
    encode6bit (c3 &&& 0x3f), encode6bit (c4 &&& 0x3f)]⟩

/-- `plantUmlEncodeBytes`: process 3 input bytes → 4 output characters at
a time; missing bytes of the final partial group read as `0`
(`data[i] ?? 0`). -/
def plantUmlEncodeBytes : List ℕ → String
  | [] => ""
  | [b1] => append3bytes b1 0 0
  | [b1, b2] => append3bytes b1 b2 0
  | b1 :: b2 :: b3 :: rest => append3bytes b1 b2 b3 ++ plantUmlEncodeBytes rest

/-! ### Flow graph builder and loop detection -/

/-- One observed loop iteration block (`{start, endExclusive, iterationNo}`). -/
structure ObservedIteration where
  start : ℕ
  endExclusive : ℕ
  iterationNo : ℕ
deriving DecidableEq

/-- Group positions by step id, preserving first-occurrence order of the
groups and ascending position order inside each group (the `byStepId`
map of the source). -/
def groupByStepId (ids : List String) : List (String × List ℕ) :=
  ids.enum.foldl (fun m p =>
    match assocGet m p.2 with
    | some l => assocSet m p.2 (l ++ [p.1])
    | none => assocSet m p.2 [p.1]) []

/-- The gap-scanning loop of `detectObservedIterations`: `none` when some
consecutive gap is `≤ 0` (the group is skipped as invalid), else the sum
of the consecutive gaps (`coverage`). -/
def gapScan : List ℕ → Option ℕ
  | [] => some 0
  | [_] => some 0
  | a :: b :: rest =>
    if b ≤ a then none
    else (gapScan (b :: rest)).map (· + (b - a))

/-- Selection state of `detectObservedIterations`. -/
structure LoopSel where
  chosen : Option (List ℕ)
  bestCoverage : ℤ
  bestFirst : ℕ

/-- `Number.MAX_SAFE_INTEGER`. -/
def maxSafeInteger : ℕ := 9007199254740991

/-- One candidate group of `detectObservedIterations`: groups with fewer
than 3 occurrences or an invalid gap are skipped; a group wins if its
coverage is strictly larger, or equal with a strictly earlier first
occurrence. -/
def loopSelStep (st : LoopSel) (indexes : List ℕ) : LoopSel :=
  if indexes.length < 3 then st
  else match gapScan indexes with
    | none => st
    | some coverage =>
      let first := indexes.headD 0
      if st.bestCoverage < (coverage : ℤ) ∨
          ((coverage : ℤ) = st.bestCoverage ∧ first < st.bestFirst) then
        ⟨some indexes, coverage, first⟩
      else st

/-- Partition the chosen occurrence list into one iteration block per
consecutive gap, numbering iterations from `n`. -/
def iterBlocks : ℕ → List ℕ → List ObservedIteration
  | _, [] => []
  | _, [_] => []
  | n, a :: b :: rest => ⟨a, b, n⟩ :: iterBlocks (n + 1) (b :: rest)

/-- `detectObservedIterations` over the grouped occurrence lists (in map
iteration order = first-occurrence order). -/
def detectObservedIterations (groups : List (List ℕ)) : List ObservedIteration :=
  match (groups.foldl loopSelStep ⟨none, -1, maxSafeInteger⟩).chosen with
  | none => []
  | some l => iterBlocks 1 l

/-- `isErrorEvent`: level is "ERROR" (case-insensitive), or a non-null
exception/error field, or `has_error === true`, or `success === false`,
or a non-empty exception-message field. -/
def isErrorEvent (ev : TraceEvent) : Bool :=
  (match asNonEmptyString (getField ev "level") with
   | some level => jsToUpper level = "ERROR"
   | none => false) ||
  (match getField ev "exception" with
   | some .null => false
   | some _ => true
   | none => false) ||
  (match getField ev "error" with
   | some .null => false
   | some _ => true
   | none => false) ||
  (match getField ev "has_error" with
   | some (.bool b) => b
   | _ => false) ||
  (match getField ev "success" with
   | some (.bool b) => !b
   | _ => false) ||
  ((asNonEmptyString (getField ev "exception_message")) <|>
    (asNonEmptyString (getField ev "exceptionMessage"))).isSome

/-- `getNextStepId`: ordered fallback over the next-pointer fields. -/
def getNextStepId (ev : TraceEvent) : Option String :=
  (asNonEmptyString ((getField ev "out").bind (fun v => objField v "next_step_id"))) <|>
  (asNonEmptyString ((getField ev "step").bind (fun v => objField v "next_resolved"))) <|>
  (asNonEmptyString (getField ev "next_step_id")) <|>
  (asNonEmptyString (getField ev "nextStepId")) <|>
  (asNonEmptyString (getField ev "next"))

/-- Left-pad a natural number with zeros to `width` digits. -/
def natPad (n : ℕ) (width : ℕ) : String :=
  let s := toString n
  (⟨List.replicate (width - s.data.length) '0'⟩ : String) ++ s

/-- `q.toFixed(digits).replace(".", ",")` for the non-negative values the
diagram code formats (ideal decimal rounding, half up, of the rational). -/
def toFixedComma (q : ℚ) (digits : ℕ) : String :=
  let scaled := (⌊q * (10 ^ digits : ℚ) + 1 / 2⌋).toNat
  toString (scaled / 10 ^ digits) ++ "," ++ natPad (scaled % 10 ^ digits) digits

/-- `formatSeconds`: `<1s` with 2 decimals, `<10s` with 1 decimal, else
rounded whole seconds; decimal point rendered as a comma. -/
def formatSeconds (ms : ℚ) : String :=
  let s := ms / 1000
  if s < 1 then toFixedComma s 2 ++ "s"
  else if s < 10 then toFixedComma s 1 ++ "s"
  else toString (⌊s + 1 / 2⌋).toNat ++ "s"

/-- `escapePumlLabel`: replace every double quote by a single quote. -/
def escapePumlLabel (s : String) : String :=
  ⟨s.data.map (fun c => if c = '"' then '\'' else c)⟩

/-- Flow node derived 1:1 from an event (the `Node` record of
`buildActivityPuml`). -/
structure FlowNode where
  idx : ℕ
  key : String
  stepId : String
  actionClass : String
  status : String
  nextStepId : Option String
  elapsedMs : Option ℚ
  durationMs : Option ℚ
deriving Inhabited

/-- Build the node for event `ev` at position `i`. -/
def nodeOf (timingSteps : List StepTiming) (i : ℕ) (ev : TraceEvent) : FlowNode :=
  let stepId := ((asNonEmptyString ((getField ev "step").bind (fun v => objField v "id"))) <|>
    (asNonEmptyString (getField ev "step_id"))).getD s!"step_{i + 1}"
  let actionClass := getActionClass ev
  let t := timingSteps.get? i
  { idx := i
    key := stepId ++ "::" ++ (if actionClass = "" then "action" else actionClass)
    stepId := stepId
    actionClass := if actionClass = "" then "action" else actionClass
    status := if isErrorEvent ev then "ERROR" else "ok"
    nextStepId := getNextStepId ev
    elapsedMs := t.bind (·.elapsedMs)
    durationMs := t.bind (·.durationMs) }

/-- All nodes of a trace (index-stable). -/
def buildNodes (dp : String → Option ℚ) (events : List TraceEvent) : List FlowNode :=
  let timing := buildTraceTiming dp events
  events.enum.map (fun p => nodeOf timing.steps p.1 p.2)

/-- `repeatedSteps`: groups with more than one occurrence, stably sorted
by descending occurrence count then key order (`localeCompare` modelled
as code-point order). -/
def repeatedSteps (byId : List (String × List ℕ)) : List (String × List ℕ) :=
  List.insertionSort
    (fun a b => b.2.length < a.2.length ∨ (a.2.length = b.2.length ∧ keyLe a.1 b.1 = true))
    (byId.filter (fun p => 1 < p.2.length))

/-- Outgoing edge target of a node: nearest later occurrence of its
declared next step id (wrapping to the first occurrence), else the next
node by index. -/
def nodeTarget (byId : List (String × List ℕ)) (numNodes : ℕ) (n : FlowNode) : Option ℕ :=
  match n.nextStepId with
  | some nsid =>
    match assocGet byId nsid with
    | some candidates =>
      (candidates.find? (fun idx => decide (n.idx < idx))) <|> candidates.head?
    | none => if n.idx + 1 < numNodes then some (n.idx + 1) else none
  | none => if n.idx + 1 < numNodes then some (n.idx + 1) else none

/-- The labeled activity line of one step. -/
def stepLine (n : FlowNode) : String :=
  let elapsed := match n.elapsedMs with
    | some e => if 0 ≤ e then formatSeconds e else "?"
    | none => "?"
  let duration := match n.durationMs with
    | some d => if 0 ≤ d then formatSeconds d else "?"
    | none => "?"
  let body := s!"{n.idx + 1}. {n.stepId} ({n.actionClass})\\nstatus={n.status} | t={elapsed} | +{duration}"
  ":" ++ escapePumlLabel body ++ ";"

/-- Opening line of one observed-loop `partition` block. -/
def partitionLine (n : ℕ) : String :=
  s!"partition \"Loop iteration #{n} (observed)\" \x7b"

/-- The row-emitting `while` loop of `buildActivityPuml`: plain step
lines outside iteration blocks, `partition` blocks for detected
iterations.  (When a block's `endExclusive` does not advance the index —
impossible for detector output, whose occurrence lists are strictly
increasing — the source would not terminate; the model returns the rows
emitted so far.) -/
def emitRows (nodes : List FlowNode) (iters : List ObservedIteration) (i : ℕ) : List String :=
  if h : i < nodes.length then
    match iters.find? (fun it => it.start = i) with
    | none => stepLine (nodes.get ⟨i, h⟩) :: emitRows nodes iters (i + 1)
    | some it =>
      if _h2 : i < it.endExclusive then
        (partitionLine it.iterationNo ::
          ((List.range' i (it.endExclusive - i)).map (fun k => stepLine (nodes.getD k default))) ++
          ["\x7d"]) ++ emitRows nodes iters it.endExclusive
      else []
  else []
termination_by nodes.length - i
decreasing_by
  · omega
  · omega

/-- One `- step x<count> @ [positions]` line of the repeated-steps note. -/
def repeatedStepLine (p : String × List ℕ) : String :=
  let positions := String.intercalate ", " ((p.2.take 8).map (fun idx => toString (idx + 1)))
  let suffix := if 8 < p.2.length then ", ..." else ""
  "- " ++ escapePumlLabel (p.1 ++ s!" x{p.2.length} @ [" ++ positions ++ suffix ++ "]")

/-- The repeated-steps section of the note block. -/
def repeatedStepsLines (reps : List (String × List ℕ)) : List String :=
  ((reps.take 20).map repeatedStepLine) ++
  (if 20 < reps.length then [s!"- ... and {reps.length - 20} more"] else [])

/-- The explanatory note block: inferred flow edges (capped at 80 with a
"+N more" suffix) and repeated-step occurrences, or only the latter, or
nothing; every opened `note right` is closed by `end note`. -/
def noteLinesOf (jumps : List String) (reps : List (String × List ℕ)) : List String :=
  if jumps.length ≠ 0 then
    ["note right", "Flow edges (inferred):"] ++
    ((jumps.take 80).map (fun j => "- " ++ escapePumlLabel j)) ++
    (if 80 < jumps.length then [s!"- ... and {jumps.length - 80} more"] else []) ++
    (if reps.length ≠ 0 then ["", "Repeated steps (loop signal):"] ++ repeatedStepsLines reps
     else []) ++
    ["end note"]
  else if reps.length ≠ 0 then
    ["note right", "Repeated steps (loop signal):"] ++ repeatedStepsLines reps ++ ["end note"]
  else []

/-- All lines of the generated activity diagram (`lines` of
`buildActivityPuml` before the final `join("\n")`). -/
def buildActivityLines (dp : String → Option ℚ) (events : List TraceEvent) : List String :=
  let nodes := buildNodes dp events
  let byId := groupByStepId (nodes.map (·.stepId))
  let reps := repeatedSteps byId
  let edges := nodes.filterMap (fun n => (nodeTarget byId nodes.length n).map (fun t => (n.idx, t)))
  if nodes.length = 0 then
    ["@startuml", "title Trace Activity Flow (observed run)", "start", ":No events;", "stop", "@enduml"]
  else
    let iterations := detectObservedIterations (byId.map (·.2))
    let rows := emitRows nodes iterations 0
    let jumps := edges.map (fun p =>
      (((nodes.get? p.1).map (·.stepId)).getD "") ++ " -> " ++ (((nodes.get? p.2).map (·.stepId)).getD ""))
    ["@startuml", "title Trace Activity Flow (observed run)", "start"] ++
      rows ++ noteLinesOf jumps reps ++ ["stop", "@enduml"]

/-- `buildActivityPuml`: the serialized diagram text. -/
def buildActivityPuml (dp : String → Option ℚ) (events : List TraceEvent) : String :=
  String.intercalate "\n" (buildActivityLines dp events)

/-! ## Theorems -/

/-- The clamped floor index of `percentile` at `p = a/b` (`a ≤ b`,
`0 < b`) is plain natural division `(len-1)*a/b` on a non-empty pool. -/
theorem percentile_nat_idx (values : List ℚ) (h : values.length ≠ 0) (a b : ℕ)
    (hb : 0 < b) (hab : a ≤ b) :
    percentile values ((a : ℚ) / b) =
      (List.insertionSort (· ≤ ·) values).getD ((values.length - 1) * a / b) 0 := by
  unfold percentile
  rw [if_neg h]
  have hlen : (List.insertionSort (· ≤ ·) values).length = values.length :=
    List.length_insertionSort _ _
  have hL1 : 1 ≤ values.length := Nat.one_le_iff_ne_zero.mpr h
  have hcast : ((List.insertionSort (· ≤ ·) values).length : ℚ) - 1 =
      ((values.length - 1 : ℕ) : ℚ) := by
    rw [hlen, Nat.cast_sub hL1, Nat.cast_one]
  have hval : ((values.length - 1 : ℕ) : ℚ) * ((a : ℚ) / b) =
      (((values.length - 1) * a : ℕ) : ℚ) / ((b : ℕ) : ℚ) := by
    push_cast
    ring
  have hnonneg : (0 : ℚ) ≤ (((values.length - 1) * a : ℕ) : ℚ) / ((b : ℕ) : ℚ) := by
    positivity
  have hfloorNat : ⌊(((values.length - 1) * a : ℕ) : ℚ) / ((b : ℕ) : ℚ)⌋₊ =
      (values.length - 1) * a / b := by
    rw [Nat.floor_div_eq_div]
  have hfloor : ⌊(((values.length - 1) * a : ℕ) : ℚ) / ((b : ℕ) : ℚ)⌋ =
      (((values.length - 1) * a / b : ℕ) : ℤ) := by
    rw [← Int.natCast_floor_eq_floor hnonneg, hfloorNat]
  have hle : (values.length - 1) * a / b ≤ values.length - 1 := by
    calc (values.length - 1) * a / b ≤ (values.length - 1) * b / b :=
          Nat.div_le_div_right (Nat.mul_le_mul_left _ hab)
      _ = values.length - 1 := Nat.mul_div_cancel _ hb
  have hidx : max 0 (min (((List.insertionSort (· ≤ ·) values).length : ℤ) - 1)
      ⌊(((List.insertionSort (· ≤ ·) values).length : ℚ) - 1) * ((a : ℚ) / b)⌋) =
      (((values.length - 1) * a / b : ℕ) : ℤ) := by
    rw [hcast, hval, hfloor, hlen]
    have h1 : (((values.length - 1) * a / b : ℕ) : ℤ) ≤ (values.length : ℤ) - 1 := by
      have := hle
      omega
    rw [min_eq_right h1, max_eq_right (by positivity)]
  simp only [hidx, Int.toNat_natCast]

/-- C1: with fewer than 6 samples in the step's per-class pool and fewer
than 6 in the global pool, no threshold is computed and `isStepSlow` is
`false` for every resolved duration (including none). -/
theorem isStepSlow_false_of_sparse_pools (stats : DurationStats) (cls : String)
    (h1 : ((assocGet stats.perClass (jsToLower cls)).getD []).length < 6)
    (h2 : stats.global.length < 6) (d : Option ℚ) :
    isStepSlow d cls stats = false := by
  have hallowed : allowedDurationMs cls stats = none := by
    unfold allowedDurationMs
    have hsrc : (if 6 ≤ ((assocGet stats.perClass (jsToLower cls)).getD []).length
        then (assocGet stats.perClass (jsToLower cls)).getD [] else stats.global) = stats.global := by
      rw [if_neg (by omega)]
    simp only [hsrc]
    rw [if_pos h2]
  unfold isStepSlow
  cases d with
  | none => rfl
  | some q => rw [hallowed]

/-- C1 witness: a large duration is not flagged when both pools have
fewer than 6 samples. -/
theorem isStepSlow_false_of_sparse_pools_witness :
    isStepSlow (some 1000000) "Fetch"
      ⟨[("fetch", [1, 2, 3, 4, 5])], [1, 2, 3, 4, 5]⟩ = false :=
  isStepSlow_false_of_sparse_pools ⟨[("fetch", [1, 2, 3, 4, 5])], [1, 2, 3, 4, 5]⟩
    "Fetch" (by decide) (by decide) (some 1000000)

/-- C2: on a pool with at least 6 samples, the threshold is
`max(150, 2.2 * median, 1.25 * p90)` where median and p90 are the
elements of the sorted copy at nearest ranks `(n-1)/2` and `9*(n-1)/10`,
and a step is flagged slow iff its duration strictly exceeds it. -/
theorem allowedDuration_formula_and_strict_slow (stats : DurationStats) (cls : String)
    (source : List ℚ)
    (hsource : source = (if 6 ≤ ((assocGet stats.perClass (jsToLower cls)).getD []).length
      then (assocGet stats.perClass (jsToLower cls)).getD [] else stats.global))
    (h6 : 6 ≤ source.length)
    (allowed : ℚ)
    (hallowed : allowed = max 150
      (max (((List.insertionSort (· ≤ ·) source).getD ((source.length - 1) / 2) 0) * (2.2 : ℚ))
        (((List.insertionSort (· ≤ ·) source).getD (9 * (source.length - 1) / 10) 0) * (1.25 : ℚ)))) :
    allowedDurationMs cls stats = some allowed ∧
      ∀ d : ℚ, (isStepSlow (some d) cls stats = true ↔ allowed < d) := by
  have hne : source.length ≠ 0 := by omega
  have hmed : percentile source (1 / 2) =
      (List.insertionSort (· ≤ ·) source).getD ((source.length - 1) / 2) 0 := by
    have := percentile_nat_idx source hne 1 2 (by omega) (by omega)
    rw [show ((1 : ℕ) : ℚ) / ((2 : ℕ) : ℚ) = 1 / 2 by norm_num] at this
    rw [this, Nat.mul_one]
  have hp90 : percentile source (9 / 10) =
      (List.insertionSort (· ≤ ·) source).getD (9 * (source.length - 1) / 10) 0 := by
    have := percentile_nat_idx source hne 9 10 (by omega) (by omega)
    rw [show ((9 : ℕ) : ℚ) / ((10 : ℕ) : ℚ) = 9 / 10 by norm_num] at this
    rw [this, Nat.mul_comm]
  have hallowedEq : allowedDurationMs cls stats = some allowed := by
    simp only [allowedDurationMs]
    rw [← hsource, if_neg (by omega : ¬ source.length < 6), hmed, hp90, hallowed]
  refine ⟨hallowedEq, fun d => ?_⟩
  unfold isStepSlow
  rw [hallowedEq]
  exact decide_eq_true_iff

/-- C2 witness: pool `[100..600]`, median 300, p90 500, threshold 660;
700 is flagged slow. -/
theorem allowedDuration_formula_and_strict_slow_witness :
    allowedDurationMs "x" ⟨[], [100, 200, 300, 400, 500, 600]⟩ = some 660 ∧
      (isStepSlow (some 700) "x" ⟨[], [100, 200, 300, 400, 500, 600]⟩ = true ↔ (660 : ℚ) < 700) :=
  let h := allowedDuration_formula_and_strict_slow ⟨[], [100, 200, 300, 400, 500, 600]⟩ "x"
    [100, 200, 300, 400, 500, 600] rfl (by norm_num) 660 (by norm_num)
  ⟨h.1, h.2 700⟩

/-- Each step of the timing pass keeps an explicit duration unchanged,
whatever the accumulator state is. -/
theorem stepOf_durationMs_explicit (dp : String → Option ℚ) (ts : Option ℚ)
    (st : Option ℚ × List (String × List ℚ)) (ev : TraceEvent) (d : ℚ)
    (hdur : getEventDurationMs ev = some d) :
    (stepOf dp ts st ev).1.durationMs = some d := by
  simp only [stepOf, hdur]

/-- Positional version over the whole forward pass. -/
theorem mapSteps_durationMs_explicit (dp : String → Option ℚ) (ts : Option ℚ) :
    ∀ (events : List TraceEvent) (st : Option ℚ × List (String × List ℚ))
      (i : ℕ) (ev : TraceEvent) (d : ℚ),
      events.get? i = some ev → getEventDurationMs ev = some d →
      ∃ t, (mapSteps dp ts st events).get? i = some t ∧ t.durationMs = some d := by
  intro events
  induction events with
  | nil => intro st i ev d hev; simp at hev
  | cons e rest ih =>
    intro st i ev d hev hdur
    cases i with
    | zero =>
      simp only [List.get?] at hev
      cases hev
      exact ⟨(stepOf dp ts st e).1, rfl, stepOf_durationMs_explicit dp ts st e d hdur⟩
    | succ n =>
      simp only [List.get?] at hev
      exact ih _ n ev d hev hdur

/-- C3: an explicit duration field always takes precedence — the resolved
`durationMs` of step `i` equals the event's explicit duration whenever one
is present, regardless of the end-minus-start difference. -/
theorem buildTraceTiming_explicit_duration_wins (dp : String → Option ℚ)
    (events : List TraceEvent) (i : ℕ) (ev : TraceEvent) (d : ℚ)
    (hev : events.get? i = some ev)
    (hdur : getEventDurationMs ev = some d) :
    ∃ t, (buildTraceTiming dp events).steps.get? i = some t ∧ t.durationMs = some d :=
  mapSteps_durationMs_explicit dp _ events _ i ev d hev hdur

/-- C3 witness: explicit `duration_ms = 500` with end timestamp
`t_ms = 2·10^12` and start `started_at = 10^12` (so `end - start` would be
`10^12`, not 500): resolved duration is exactly 500. -/
theorem buildTraceTiming_explicit_duration_wins_witness :
    ∃ t, (buildTraceTiming (fun _ => none)
      [[("duration_ms", Json.num 500), ("t_ms", Json.num (2 * 10 ^ 12)),
        ("started_at", Json.num (10 ^ 12))]]).steps.get? 0 = some t ∧
      t.durationMs = some 500 :=
  buildTraceTiming_explicit_duration_wins (fun _ => none)
    [[("duration_ms", Json.num 500), ("t_ms", Json.num (2 * 10 ^ 12)),
      ("started_at", Json.num (10 ^ 12))]] 0
    [("duration_ms", Json.num 500), ("t_ms", Json.num (2 * 10 ^ 12)),
      ("started_at", Json.num (10 ^ 12))] 500 rfl (by norm_num [getEventDurationMs, getNumField, getField])

/-- C6: whenever the whole input parses as a JSON array, the parser
returns exactly that array's elements, in order. -/
theorem parseTraceEventsFromText_json_array (jp : String → Option Json) (text : String)
    (xs : List Json) (hne : text ≠ "") (h : jp text = some (.arr xs)) :
    parseTraceEventsFromText jp text = xs := by
  unfold parseTraceEventsFromText
  rw [if_neg hne, h]
  rfl

/-- C6 witness: a two-element array input is returned verbatim. -/
theorem parseTraceEventsFromText_json_array_witness :
    parseTraceEventsFromText
      (fun t => if t = "[1, {}]" then some (.arr [.num 1, .obj []]) else none)
      "[1, {}]" = [.num 1, .obj []] :=
  parseTraceEventsFromText_json_array
    (fun t => if t = "[1, {}]" then some (.arr [.num 1, .obj []]) else none)
    "[1, {}]" [.num 1, .obj []] (by decide) rfl

/-- A JS object read after a cons cell. -/
theorem getField_cons (k' : String) (v : Json) (rest : TraceEvent) (k : String) :
    getField ((k', v) :: rest) k = if k' = k then some v else getField rest k := rfl

/-- Unfolding `stripStateFields` over the leading field. -/
theorem stripStateFields_cons (k' : String) (v : Json) (rest : TraceEvent) :
    stripStateFields ((k', v) :: rest) =
      if k' ∈ stateFieldKeys then stripStateFields rest
      else (k', v) :: stripStateFields rest := by
  by_cases hm : k' ∈ stateFieldKeys <;> simp [stripStateFields, List.filter_cons, hm]

/-- C10: `stripStateFields` removes exactly the nine state keys: the key
sequence is the input's key sequence minus the state keys, every state
key reads as absent afterwards, and every other key reads the same value
as in the input. -/
theorem stripStateFields_spec (ev : TraceEvent) :
    objKeys (stripStateFields ev) =
      (objKeys ev).filter (fun k => ¬ stateFieldKeys.contains k) ∧
    (∀ k, k ∈ stateFieldKeys → getField (stripStateFields ev) k = none) ∧
    (∀ k, k ∉ stateFieldKeys → getField (stripStateFields ev) k = getField ev k) := by
  induction ev with
  | nil => exact ⟨rfl, fun _ _ => rfl, fun _ _ => rfl⟩
  | cons p rest ih =>
    obtain ⟨k', v⟩ := p
    obtain ⟨ihKeys, ihState, ihOther⟩ := ih
    refine ⟨?_, ?_, ?_⟩
    · by_cases hm : k' ∈ stateFieldKeys
      · rw [stripStateFields_cons, if_pos hm]
        simpa [objKeys, List.filter_cons, hm] using ihKeys
      · rw [stripStateFields_cons, if_neg hm]
        simpa [objKeys, List.filter_cons, hm] using ihKeys
    · intro k hk
      by_cases hm : k' ∈ stateFieldKeys
      · rw [stripStateFields_cons, if_pos hm]
        exact ihState k hk
      · rw [stripStateFields_cons, if_neg hm, getField_cons,
          if_neg (fun he : k' = k => hm (by rw [he]; exact hk))]
        exact ihState k hk
    · intro k hk
      by_cases hm : k' ∈ stateFieldKeys
      · rw [stripStateFields_cons, if_pos hm, getField_cons,
          if_neg (fun he : k' = k => hk (by rw [← he]; exact hm))]
        exact ihOther k hk
      · rw [stripStateFields_cons, if_neg hm, getField_cons, getField_cons]
        by_cases he : k' = k
        · rw [if_pos he, if_pos he]
        · rw [if_neg he, if_neg he]
          exact ihOther k hk

/-- C10 witness: concrete event with mixed state and non-state keys. -/
theorem stripStateFields_spec_witness :
    objKeys (stripStateFields [("step_id", .str "A"), ("state", .num 1), ("stateAfter", .null)]) =
      (objKeys [("step_id", .str "A"), ("state", .num 1), ("stateAfter", .null)]).filter
        (fun k => ¬ stateFieldKeys.contains k) ∧
    getField (stripStateFields [("step_id", .str "A"), ("state", .num 1), ("stateAfter", .null)])
      "state" = none ∧
    getField (stripStateFields [("step_id", .str "A"), ("state", .num 1), ("stateAfter", .null)])
      "step_id" = getField [("step_id", .str "A"), ("state", .num 1), ("stateAfter", .null)] "step_id" :=
  let h := stripStateFields_spec [("step_id", .str "A"), ("state", .num 1), ("stateAfter", .null)]
  ⟨h.1, h.2.1 "state" (by decide), h.2.2 "step_id" (by decide)⟩

/-- Every `Json` value has positive weight. -/
theorem Json.weight_pos (a : Json) : 1 ≤ Json.weight a := by
  cases a <;> simp [Json.weight]

/-- Reflexivity of `deepEqual` (with its list and field variants), proved
by induction on the weight bound. -/
theorem deepEqual_refl_bounded : ∀ n : ℕ,
    (∀ a, Json.weight a ≤ n → deepEqual a a = true) ∧
    (∀ xs, Json.weightList xs ≤ n → deepEqualList xs xs = true) ∧
    (∀ fs, Json.weightFields fs ≤ n → deepEqualFields fs fs = true) := by
  intro n
  induction n with
  | zero =>
    refine ⟨fun a ha => absurd ha (by have := Json.weight_pos a; omega), ?_, ?_⟩
    · intro xs hx
      cases xs with
      | nil => simp [deepEqualList]
      | cons x rest => simp [Json.weightList] at hx
    · intro fs hf
      cases fs with
      | nil => simp [deepEqualFields]
      | cons p rest =>
        obtain ⟨k, v⟩ := p
        simp [Json.weightFields] at hf
  | succ n ih =>
    obtain ⟨ihV, ihL, ihF⟩ := ih
    refine ⟨?_, ?_, ?_⟩
    · intro a ha
      cases a with
      | null => simp [deepEqual]
      | bool b => simp [deepEqual]
      | num q => simp [deepEqual]
      | str s => simp [deepEqual]
      | arr xs =>
        simp only [deepEqual]
        exact ihL xs (by simp [Json.weight] at ha; omega)
      | obj fs =>
        simp only [deepEqual]
        exact ihF (sortFieldsByKey fs)
          (by rw [weightFields_sortFieldsByKey]; simp [Json.weight] at ha; omega)
    · intro xs hx
      cases xs with
      | nil => simp [deepEqualList]
      | cons x rest =>
        simp only [Json.weightList] at hx
        simp only [deepEqualList, Bool.and_eq_true]
        exact ⟨ihV x (by omega), ihL rest (by omega)⟩
    · intro fs hf
      cases fs with
      | nil => simp [deepEqualFields]
      | cons p rest =>
        obtain ⟨k, v⟩ := p
        simp only [Json.weightFields] at hf
        simp only [deepEqualFields, Bool.and_eq_true, beq_self_eq_true, true_and]
        exact ⟨ihV v (by omega), ihF rest (by omega)⟩

/-- `deepEqual` is reflexive. -/
theorem deepEqual_refl (a : Json) : deepEqual a a = true :=
  (deepEqual_refl_bounded (Json.weight a)).1 a le_rfl

/-- C7: diffing any JSON value against itself reports no changed key. -/
theorem diffTopLevel_self (a : Json) : diffTopLevel a a = [] := by
  unfold diffTopLevel
  cases hb : (isTruthyObject a && isTruthyObject a) with
  | false => simp [hb]
  | true =>
    simp only [hb, if_true]
    rw [List.filterMap_eq_nil_iff]
    intro k _
    cases hv : jsGet a k <;> simp [diffEntry, deepEqualOpt, deepEqual_refl, hv]

/-- Spec-side sum of consecutive gaps of an occurrence list. -/
def gapSum (l : List ℕ) : ℕ :=
  ((l.zip l.tail).map (fun p => p.2 - p.1)).sum

/-- Spec-side first occurrence of a group. -/
def firstOcc (l : List ℕ) : ℕ := l.headD 0

/-- On a strictly increasing occurrence list the gap scan is valid and
computes the gap sum. -/
theorem gapScan_of_chain : ∀ (g : List ℕ), List.Chain' (· < ·) g →
    gapScan g = some (gapSum g) := by
  intro g
  induction g with
  | nil => intro; rfl
  | cons a rest ih =>
    intro hchain
    cases rest with
    | nil => rfl
    | cons b rest' =>
      have hab : a < b := List.Chain'.rel_head hchain
      have htail : List.Chain' (· < ·) (b :: rest') := hchain.tail
      simp only [gapScan, if_neg (by omega : ¬ b ≤ a), ih htail, Option.map_some',
        gapSum, List.zip, List.tail]
      simp [gapSum, List.zipWith]
      omega

/-- Invariant carried through the selection fold of
`detectObservedIterations`. -/
def LoopSelGood (processed : List (List ℕ)) (st : LoopSel) : Prop :=
  (st = ⟨none, -1, maxSafeInteger⟩ ∧ ∀ g ∈ processed, g.length < 3) ∨
  (∃ c ∈ processed, 3 ≤ c.length ∧ st = ⟨some c, (gapSum c : ℤ), firstOcc c⟩ ∧
    ∀ g ∈ processed, 3 ≤ g.length →
      gapSum g < gapSum c ∨ (gapSum g = gapSum c ∧ firstOcc c ≤ firstOcc g))

theorem loopSel_foldl_good : ∀ (groups processed : List (List ℕ)) (st : LoopSel),
    LoopSelGood processed st → (∀ g ∈ groups, List.Chain' (· < ·) g) →
    LoopSelGood (processed ++ groups) (groups.foldl loopSelStep st) := by
  intro groups
  induction groups with
  | nil => intro processed st hGood _; simpa using hGood
  | cons g gs ih =>
    intro processed st hGood hchain
    have hg := hchain g (by simp)
    have hgs : ∀ h ∈ gs, List.Chain' (· < ·) h := fun h hh => hchain h (by simp [hh])
    have hstep : LoopSelGood (processed ++ [g]) (loopSelStep st g) := by
      by_cases hlen : g.length < 3
      · rw [loopSelStep, if_pos hlen]
        rcases hGood with ⟨hst, hall⟩ | ⟨c, hc, hclen, hst, hbeats⟩
        · exact Or.inl ⟨hst, by
            intro h hh
            rcases List.mem_append.mp hh with hh | hh
            · exact hall h hh
            · simp at hh; subst hh; exact hlen⟩
        · refine Or.inr ⟨c, by simp [hc], hclen, hst, ?_⟩
          intro h hh h3
          rcases List.mem_append.mp hh with hh | hh
          · exact hbeats h hh h3
          · simp at hh; subst hh; omega
      · rcases hGood with ⟨hst, hall⟩ | ⟨c, hc, hclen, hst, hbeats⟩
        · subst hst
          simp only [loopSelStep, if_neg hlen, gapScan_of_chain g hg]
          rw [if_pos (Or.inl (by omega))]
          refine Or.inr ⟨g, by simp, by omega, rfl, ?_⟩
          intro h hh _
          rcases List.mem_append.mp hh with hh | hh
          · exact absurd (hall h hh) (by omega)
          · simp at hh; subst hh; right; exact ⟨rfl, le_rfl⟩
        · subst hst
          simp only [loopSelStep, if_neg hlen, gapScan_of_chain g hg]
          by_cases hcond : (((gapSum c : ℤ) < (gapSum g : ℤ)) ∨
              ((gapSum g : ℤ) = (gapSum c : ℤ) ∧ g.headD 0 < firstOcc c))
          · rw [if_pos hcond]
            refine Or.inr ⟨g, by simp, by omega, rfl, ?_⟩
            intro h hh h3
            rcases List.mem_append.mp hh with hh | hh
            · have := hbeats h hh h3
              rcases hcond with hlt | ⟨heq, hfirst⟩
              · left
                rcases this with h1 | ⟨h1, _⟩ <;> omega
              · rcases this with h1 | ⟨h1, h2⟩
                · left; omega
                · right
                  constructor
                  · omega
                  · simp only [firstOcc] at *; omega
            · simp at hh; subst hh; right; exact ⟨rfl, le_rfl⟩
          · rw [if_neg hcond]
            refine Or.inr ⟨c, by simp [hc], hclen, rfl, ?_⟩
            intro h hh h3
            rcases List.mem_append.mp hh with hh | hh
            · exact hbeats h hh h3
            · simp at hh; subst hh
              push_neg at hcond
              obtain ⟨h1, h2⟩ := hcond
              by_cases heq : gapSum h = gapSum c
              · right
                refine ⟨heq, ?_⟩
                have := h2 (by omega)
                simp only [firstOcc] at *
                omega
              · left; omega
    have := ih (processed ++ [g]) (loopSelStep st g) hstep hgs
    simpa [List.append_assoc] using this

/-- Positional content of `iterBlocks`: block `j` spans from the `j`-th
occurrence to the `j+1`-st, numbered `n + j`. -/
theorem iterBlocks_get : ∀ (l : List ℕ) (n j : ℕ) (a b : ℕ),
    l.get? j = some a → l.get? (j + 1) = some b →
    (iterBlocks n l).get? j = some ⟨a, b, n + j⟩ := by
  intro l
  induction l with
  | nil => intro n j a b h; simp at h
  | cons x rest ih =>
    intro n j a b ha hb
    cases rest with
    | nil =>
      exfalso
      cases j with
      | zero => simp at hb
      | succ m => simp at hb
    | cons y rest' =>
      cases j with
      | zero =>
        simp only [List.get?] at ha hb
        cases ha; cases hb
        simp [iterBlocks]
      | succ m =>
        simp only [List.get?] at ha hb
        have := ih (n + 1) m a b ha hb
        simpa [iterBlocks, Nat.add_assoc, Nat.add_comm 1 m] using this

/-- `iterBlocks` produces one block per consecutive gap. -/
theorem iterBlocks_length : ∀ (n : ℕ) (l : List ℕ),
    (iterBlocks n l).length = l.length - 1 := by
  intro n l
  induction l generalizing n with
  | nil => rfl
  | cons x rest ih =>
    cases rest with
    | nil => rfl
    | cons y rest' => simpa [iterBlocks] using ih (n + 1)

/-- C4: the loop detector considers only groups with ≥ 3 occurrences,
selects the group with maximal consecutive-gap sum (ties broken by the
earliest first occurrence) and partitions its occurrence span into one
iteration block per gap; concretely, step id "Loop" at positions 2, 5, 8
yields exactly the two blocks 2→5 and 5→8. -/
theorem detectObservedIterations_spec :
    (∀ (groups : List (List ℕ)), (∀ g ∈ groups, List.Chain' (· < ·) g) →
      (detectObservedIterations groups = [] ∧ ∀ g ∈ groups, g.length < 3) ∨
      (∃ c ∈ groups, 3 ≤ c.length ∧
        detectObservedIterations groups = iterBlocks 1 c ∧
        (iterBlocks 1 c).length = c.length - 1 ∧
        (∀ j a b, c.get? j = some a → c.get? (j + 1) = some b →
          (iterBlocks 1 c).get? j = some ⟨a, b, j + 1⟩) ∧
        ∀ g ∈ groups, 3 ≤ g.length →
          gapSum g < gapSum c ∨ (gapSum g = gapSum c ∧ firstOcc c ≤ firstOcc g))) ∧
    detectObservedIterations ((groupByStepId
      ["s1", "s2", "Loop", "s4", "s5", "Loop", "s7", "s8", "Loop"]).map (·.2)) =
      [⟨2, 5, 1⟩, ⟨5, 8, 2⟩] := by
  constructor
  · intro groups hchain
    have hGood : LoopSelGood ([] ++ groups)
        (groups.foldl loopSelStep ⟨none, -1, maxSafeInteger⟩) :=
      loopSel_foldl_good groups [] ⟨none, -1, maxSafeInteger⟩
        (Or.inl ⟨rfl, by simp⟩) hchain
    rw [List.nil_append] at hGood
    rcases hGood with ⟨hst, hall⟩ | ⟨c, hc, hclen, hst, hbeats⟩
    · left
      refine ⟨?_, hall⟩
      rw [detectObservedIterations, hst]
    · right
      refine ⟨c, hc, hclen, ?_, iterBlocks_length 1 c,
        fun j a b ha hb => by simpa [Nat.add_comm 1 j] using iterBlocks_get c 1 j a b ha hb,
        hbeats⟩
      rw [detectObservedIterations, hst]
  · decide

/-- C4 witness: the general selection statement applied to the concrete
grouped node sequence with "Loop" at positions 2, 5, 8. -/
theorem detectObservedIterations_spec_witness :
    (detectObservedIterations ((groupByStepId
        ["s1", "s2", "Loop", "s4", "s5", "Loop", "s7", "s8", "Loop"]).map (·.2)) = [] ∧
      ∀ g ∈ (groupByStepId
        ["s1", "s2", "Loop", "s4", "s5", "Loop", "s7", "s8", "Loop"]).map (·.2), g.length < 3) ∨
    (∃ c ∈ (groupByStepId
        ["s1", "s2", "Loop", "s4", "s5", "Loop", "s7", "s8", "Loop"]).map (·.2), 3 ≤ c.length ∧
      detectObservedIterations ((groupByStepId
        ["s1", "s2", "Loop", "s4", "s5", "Loop", "s7", "s8", "Loop"]).map (·.2)) = iterBlocks 1 c ∧
      (iterBlocks 1 c).length = c.length - 1 ∧
      (∀ j a b, c.get? j = some a → c.get? (j + 1) = some b →
        (iterBlocks 1 c).get? j = some ⟨a, b, j + 1⟩) ∧
      ∀ g ∈ (groupByStepId
        ["s1", "s2", "Loop", "s4", "s5", "Loop", "s7", "s8", "Loop"]).map (·.2), 3 ≤ g.length →
        gapSum g < gapSum c ∨ (gapSum g = gapSum c ∧ firstOcc c ≤ firstOcc g)) :=
  detectObservedIterations_spec.1
    ((groupByStepId ["s1", "s2", "Loop", "s4", "s5", "Loop", "s7", "s8", "Loop"]).map (·.2))
    (by
      have hg : (groupByStepId
          ["s1", "s2", "Loop", "s4", "s5", "Loop", "s7", "s8", "Loop"]).map (·.2) =
          [[0], [1], [2, 5, 8], [3], [4], [6], [7]] := by decide
      rw [hg]
      intro g hgm
      simp only [List.mem_cons, List.not_mem_nil, or_false] at hgm
      rcases hgm with rfl | rfl | rfl | rfl | rfl | rfl | rfl <;>
        simp [List.chain'_cons])

/-- Length of the 4-character block. -/
theorem append3bytes_length (b1 b2 b3 : ℕ) : (append3bytes b1 b2 b3).length = 4 := rfl

/-- `plantUmlEncodeBytes` emits 4 characters per started group of 3
input bytes. -/
theorem plantUmlEncodeBytes_length (data : List ℕ) :
    (plantUmlEncodeBytes data).length = 4 * ((data.length + 2) / 3) := by
  induction data using plantUmlEncodeBytes.induct with
  | case1 => rfl
  | case2 b1 => simp [plantUmlEncodeBytes, append3bytes, String.length]
  | case3 b1 b2 => simp [plantUmlEncodeBytes, append3bytes, String.length]
  | case4 b1 b2 b3 rest ih =>
    simp only [plantUmlEncodeBytes, String.length_append, append3bytes_length, ih,
      List.length_cons]
    omega

/-- Zero-padding of the final partial group: appending the zero bytes the
encoder implicitly reads (`data[i] ?? 0`) leaves the output unchanged. -/
theorem plantUmlEncodeBytes_pad (data : List ℕ) :
    plantUmlEncodeBytes data =
      plantUmlEncodeBytes (data ++ List.replicate ((3 - data.length % 3) % 3) 0) := by
  induction data using plantUmlEncodeBytes.induct with
  | case1 => rfl
  | case2 b1 => rfl
  | case3 b1 b2 => rfl
  | case4 b1 b2 b3 rest ih =>
    have hmod : (3 - (b1 :: b2 :: b3 :: rest).length % 3) % 3 = (3 - rest.length % 3) % 3 := by
      simp only [List.length_cons]
      omega
    simp only [hmod, List.cons_append, plantUmlEncodeBytes, List.append_eq]
    rw [← ih]

/-- C5: `[0,0,0]` encodes to `"0000"`; each 6-bit value maps to the
digit/uppercase/lowercase/`-`/`_` alphabet; every 3 input bytes produce 4
output characters; the final partial group is zero-padded. -/
theorem plantUmlEncode_spec :
    plantUmlEncodeBytes [0, 0, 0] = "0000" ∧
    (∀ b : ℕ, (b < 10 → encode6bit b = Char.ofNat ('0'.toNat + b)) ∧
      (10 ≤ b → b < 36 → encode6bit b = Char.ofNat ('A'.toNat + (b - 10))) ∧
      (36 ≤ b → b < 62 → encode6bit b = Char.ofNat ('a'.toNat + (b - 36))) ∧
      (b = 62 → encode6bit b = '-') ∧
      (b = 63 → encode6bit b = '_')) ∧
    (∀ data : List ℕ, (plantUmlEncodeBytes data).length = 4 * ((data.length + 2) / 3)) ∧
    (∀ data : List ℕ, plantUmlEncodeBytes data =
      plantUmlEncodeBytes (data ++ List.replicate ((3 - data.length % 3) % 3) 0)) := by
  refine ⟨rfl, ?_, plantUmlEncodeBytes_length, plantUmlEncodeBytes_pad⟩
  intro b
  refine ⟨?_, ?_, ?_, ?_, ?_⟩
  · intro h
    rw [encode6bit, if_pos h]
    rfl
  · intro h1 h2
    rw [encode6bit, if_neg (by omega), if_pos h2]
    rfl
  · intro h1 h2
    rw [encode6bit, if_neg (by omega), if_neg (by omega), if_pos h2]
    rfl
  · intro h
    subst h
    rfl
  · intro h
    subst h
    rfl

/-- C5 witness: the alphabet at representatives of every range. -/
theorem plantUmlEncode_spec_witness :
    plantUmlEncodeBytes [0, 0, 0] = "0000" ∧
    encode6bit 5 = Char.ofNat ('0'.toNat + 5) ∧
    encode6bit 12 = Char.ofNat ('A'.toNat + (12 - 10)) ∧
    encode6bit 40 = Char.ofNat ('a'.toNat + (40 - 36)) ∧
    encode6bit 62 = '-' ∧ encode6bit 63 = '_' ∧
    (plantUmlEncodeBytes [1, 2, 3, 4]).length = 4 * (((4 : ℕ) + 2) / 3) ∧
    plantUmlEncodeBytes [1, 2, 3, 4] =
      plantUmlEncodeBytes ([1, 2, 3, 4] ++ List.replicate ((3 - [1, 2, 3, 4].length % 3) % 3) 0) :=
  ⟨plantUmlEncode_spec.1,
    (plantUmlEncode_spec.2.1 5).1 (by omega),
    (plantUmlEncode_spec.2.1 12).2.1 (by omega) (by omega),
    (plantUmlEncode_spec.2.1 40).2.2.1 (by omega) (by omega),
    (plantUmlEncode_spec.2.1 62).2.2.2.1 rfl,
    (plantUmlEncode_spec.2.1 63).2.2.2.2 rfl,
    plantUmlEncode_spec.2.2.1 [1, 2, 3, 4],
    plantUmlEncode_spec.2.2.2 [1, 2, 3, 4]⟩

/-- First character of a string, used to separate diagram line kinds. -/
def headChar (s : String) : Option Char := s.data.head?

theorem ne_of_headChar {s m : String} {c : Char} (hs : headChar s = some c)
    (hm : headChar m ≠ some c) : s ≠ m :=
  fun h => hm (h ▸ hs)

theorem headChar_stepLine (n : FlowNode) : headChar (stepLine n) = some ':' := by
  simp [stepLine, headChar, String.data_append]

theorem headChar_partitionLine (n : ℕ) : headChar (partitionLine n) = some 'p' := rfl

theorem headChar_dash (x : String) : headChar ("- " ++ x) = some '-' := by
  simp [headChar, String.data_append]

theorem headChar_more (n : ℕ) : headChar (s!"- ... and {n} more") = some '-' := rfl

theorem headChar_repeatedStepLine (p : String × List ℕ) :
    headChar (repeatedStepLine p) = some '-' := by
  simp [repeatedStepLine, headChar, String.data_append]

/-- Every row emitted by the step/partition loop is a step line, a
partition opener, or the closing brace. -/
theorem emitRows_shape (nodes : List FlowNode) (iters : List ObservedIteration) (i : ℕ) :
    ∀ r ∈ emitRows nodes iters i,
      (∃ n, r = stepLine n) ∨ (∃ k, r = partitionLine k) ∨ r = "\x7d" := by
  induction i using emitRows.induct nodes iters with
  | case1 x h hfind ih =>
    intro r hr
    rw [emitRows, dif_pos h, hfind] at hr
    rcases List.mem_cons.mp hr with hr | hr
    · exact Or.inl ⟨_, hr⟩
    · exact ih r hr
  | case2 x h it hfind hlt ih =>
    intro r hr
    rw [emitRows, dif_pos h, hfind] at hr
    simp only [dif_pos hlt] at hr
    rcases List.mem_append.mp hr with hr | hr
    · rcases List.mem_cons.mp hr with hr | hr
      · exact Or.inr (Or.inl ⟨it.iterationNo, hr⟩)
      · rcases List.mem_append.mp hr with hr | hr
        · obtain ⟨k, _, hk⟩ := List.mem_map.mp hr
          exact Or.inl ⟨_, hk.symm⟩
        · simp at hr
          exact Or.inr (Or.inr hr)
    · exact ih r hr
  | case3 x h it hfind hnlt =>
    intro r hr
    rw [emitRows, dif_pos h, hfind] at hr
    simp only [dif_neg hnlt] at hr
    simp at hr
  | case4 x h =>
    intro r hr
    rw [emitRows, dif_neg h] at hr
    simp at hr

/-- The note markers never occur among emitted rows. -/
theorem emitRows_no_marker (nodes : List FlowNode) (iters : List ObservedIteration) (i : ℕ)
    (m : String) (hm : m = "note right" ∨ m = "end note") :
    m ∉ emitRows nodes iters i := by
  intro hmem
  rcases emitRows_shape nodes iters i m hmem with ⟨n, hn⟩ | ⟨k, hk⟩ | hbrace
  · have := headChar_stepLine n
    rw [← hn] at this
    rcases hm with rfl | rfl <;> exact absurd this (by decide)
  · have := headChar_partitionLine k
    rw [← hk] at this
    rcases hm with rfl | rfl <;> exact absurd this (by decide)
  · rcases hm with rfl | rfl <;> exact absurd hbrace (by decide)

/-- The middle lines of the note block are never markers either. -/
theorem repeatedStepsLines_no_marker (reps : List (String × List ℕ)) (m : String)
    (hm : m = "note right" ∨ m = "end note") :
    m ∉ repeatedStepsLines reps := by
  intro hmem
  rw [repeatedStepsLines] at hmem
  rcases List.mem_append.mp hmem with hmem | hmem
  · obtain ⟨p, _, hp⟩ := List.mem_map.mp hmem
    have := headChar_repeatedStepLine p
    rw [hp] at this
    rcases hm with rfl | rfl <;> exact absurd this (by decide)
  · by_cases hlen : 20 < reps.length
    · rw [if_pos hlen] at hmem
      simp at hmem
      have := headChar_more (reps.length - 20)
      rw [show s!"- ... and {reps.length - 20} more" = m from hmem.symm] at this
      rcases hm with rfl | rfl <;> exact absurd this (by decide)
    · rw [if_neg hlen] at hmem
      simp at hmem

/-- Each opened note block in the note section is closed: the two markers
occur equally often. -/
theorem noteLinesOf_count (jumps : List String) (reps : List (String × List ℕ)) :
    (noteLinesOf jumps reps).count "note right" = (noteLinesOf jumps reps).count "end note" := by
  have hdash : ∀ (l : List String) (m : String), (m = "note right" ∨ m = "end note") →
      m ∉ l.map (fun j => "- " ++ escapePumlLabel j) := by
    intro l m hm hmem
    obtain ⟨j, _, hj⟩ := List.mem_map.mp hmem
    have := headChar_dash (escapePumlLabel j)
    rw [hj] at this
    rcases hm with rfl | rfl <;> exact absurd this (by decide)
  have hcount : ∀ (l : List String) (m : String), m ∉ l → l.count m = 0 :=
    fun l m h => List.count_eq_zero.mpr h
  rw [noteLinesOf]
  by_cases hj : jumps.length ≠ 0
  · rw [if_pos hj]
    simp only [List.count_append, List.count_cons, List.count_nil]
    have h1 := hcount _ _ (hdash (jumps.take 80) "note right" (Or.inl rfl))
    have h2 := hcount _ _ (hdash (jumps.take 80) "end note" (Or.inr rfl))
    have h3 : ∀ m, (m = "note right" ∨ m = "end note") →
        (if 80 < jumps.length then [s!"- ... and {jumps.length - 80} more"] else []).count m = 0 := by
      intro m hm
      apply hcount
      intro hmem
      by_cases hl : 80 < jumps.length
      · rw [if_pos hl] at hmem
        simp at hmem
        have := headChar_more (jumps.length - 80)
        rw [show s!"- ... and {jumps.length - 80} more" = m from hmem.symm] at this
        rcases hm with rfl | rfl <;> exact absurd this (by decide)
      · rw [if_neg hl] at hmem
        simp at hmem
    have h4 : ∀ m, (m = "note right" ∨ m = "end note") →
        (if reps.length ≠ 0 then ["", "Repeated steps (loop signal):"] ++ repeatedStepsLines reps
          else []).count m = 0 := by
      intro m hm
      apply hcount
      intro hmem
      by_cases hr : reps.length ≠ 0
      · rw [if_pos hr] at hmem
        rcases List.mem_append.mp hmem with hmem | hmem
        · rcases hm with rfl | rfl <;> simp at hmem
        · exact repeatedStepsLines_no_marker reps m hm hmem
      · rw [if_neg hr] at hmem
        simp at hmem
    rw [h1, h2, h3 _ (Or.inl rfl), h3 _ (Or.inr rfl), h4 _ (Or.inl rfl), h4 _ (Or.inr rfl)]
    decide
  · rw [if_neg hj]
    by_cases hr : reps.length ≠ 0
    · rw [if_pos hr]
      simp only [List.count_append, List.count_cons, List.count_nil]
      have h1 := List.count_eq_zero.mpr (repeatedStepsLines_no_marker reps "note right" (Or.inl rfl))
      have h2 := List.count_eq_zero.mpr (repeatedStepsLines_no_marker reps "end note" (Or.inr rfl))
      rw [h1, h2]
      decide
    · rw [if_neg hr]
      rfl

/-- C9: for every event list (including empty and malformed records) the
generated diagram opens with `@startuml`, ends with `@enduml`, contains a
terminal `stop`, closes every opened note block, and renders the minimal
valid diagram when there are no events. -/
theorem buildActivityPuml_closed (dp : String → Option ℚ) (events : List TraceEvent) :
    (buildActivityLines dp events).head? = some "@startuml" ∧
    (buildActivityLines dp events).getLast? = some "@enduml" ∧
    "stop" ∈ buildActivityLines dp events ∧
    (buildActivityLines dp events).count "note right" =
      (buildActivityLines dp events).count "end note" ∧
    buildActivityPuml dp [] =
      "@startuml\ntitle Trace Activity Flow (observed run)\nstart\n:No events;\nstop\n@enduml" := by
  by_cases h : (buildNodes dp events).length = 0
  · refine ⟨?_, ?_, ?_, ?_, rfl⟩ <;>
      simp [buildActivityLines, h]
  · have hexp : buildActivityLines dp events =
        ["@startuml", "title Trace Activity Flow (observed run)", "start"] ++
          emitRows (buildNodes dp events)
            (detectObservedIterations
              ((groupByStepId ((buildNodes dp events).map (·.stepId))).map (·.2))) 0 ++
          noteLinesOf
            (((buildNodes dp events).filterMap (fun n =>
              (nodeTarget (groupByStepId ((buildNodes dp events).map (·.stepId)))
                (buildNodes dp events).length n).map (fun t => (n.idx, t)))).map (fun p =>
              ((((buildNodes dp events).get? p.1).map (·.stepId)).getD "") ++ " -> " ++
                ((((buildNodes dp events).get? p.2).map (·.stepId)).getD "")))
            (repeatedSteps (groupByStepId ((buildNodes dp events).map (·.stepId)))) ++
          ["stop", "@enduml"] := by
      rw [buildActivityLines]
      simp only [if_neg h]
    refine ⟨?_, ?_, ?_, ?_, rfl⟩
    · rw [hexp]; rfl
    · rw [hexp]
      rw [List.getLast?_append]
      rfl
    · rw [hexp]
      simp
    · rw [hexp]
      simp only [List.count_append]
      rw [List.count_eq_zero.mpr (emitRows_no_marker _ _ 0 "note right" (Or.inl rfl)),
        List.count_eq_zero.mpr (emitRows_no_marker _ _ 0 "end note" (Or.inr rfl)),
        noteLinesOf_count]
      have hp1 : List.count "note right"
          ["@startuml", "title Trace Activity Flow (observed run)", "start"] = 0 := by decide
      have hp2 : List.count "end note"
          ["@startuml", "title Trace Activity Flow (observed run)", "start"] = 0 := by decide
      have hs1 : List.count "note right" ["stop", "@enduml"] = 0 := by decide
      have hs2 : List.count "end note" ["stop", "@enduml"] = 0 := by decide
      rw [hp1, hp2, hs1, hs2]

/-! ### Key-order independence of the diff engine (C8) -/

theorem Char.toNat_inj {a b : Char} (h : a.toNat = b.toNat) : a = b :=
  Char.ext (UInt32.ext h)

theorem charListLe_total : ∀ (a b : List Char),
    charListLe a b = true ∨ charListLe b a = true := by
  intro a
  induction a with
  | nil => intro b; left; rfl
  | cons x xs ih =>
    intro b
    cases b with
    | nil => right; rfl
    | cons y ys =>
      by_cases h1 : x.toNat < y.toNat
      · left; simp [charListLe, h1]
      · by_cases h2 : y.toNat < x.toNat
        · right; simp [charListLe, h2]
        · rcases ih ys with h | h
          · left; simp [charListLe, h1, h2, h]
          · right; simp [charListLe, h1, h2, h, (by omega : ¬ y.toNat < x.toNat)]

theorem charListLe_trans : ∀ (a b c : List Char),
    charListLe a b = true → charListLe b c = true → charListLe a c = true := by
  intro a
  induction a with
  | nil => intro b c _ _; rfl
  | cons x xs ih =>
    intro b c hab hbc
    cases b with
    | nil => simp [charListLe] at hab
    | cons y ys =>
      cases c with
      | nil => simp [charListLe] at hbc
      | cons z zs =>
        rw [charListLe] at hab hbc ⊢
        by_cases h1 : x.toNat < y.toNat <;> by_cases h2 : y.toNat < z.toNat
        · rw [if_pos (by omega : x.toNat < z.toNat)]
        · rw [if_neg h2] at hbc
          by_cases h3 : z.toNat < y.toNat
          · rw [if_pos h3] at hbc
            exact absurd hbc (by simp)
          · rw [if_pos (by omega : x.toNat < z.toNat)]
        · rw [if_neg h1] at hab
          by_cases h3 : y.toNat < x.toNat
          · rw [if_pos h3] at hab
            exact absurd hab (by simp)
          · rw [if_pos (by omega : x.toNat < z.toNat)]
        · rw [if_neg h1] at hab
          rw [if_neg h2] at hbc
          by_cases h3 : y.toNat < x.toNat
          · rw [if_pos h3] at hab
            exact absurd hab (by simp)
          · by_cases h4 : z.toNat < y.toNat
            · rw [if_pos h4] at hbc
              exact absurd hbc (by simp)
            · rw [if_neg h3] at hab
              rw [if_neg h4] at hbc
              rw [if_neg (by omega : ¬ x.toNat < z.toNat),
                if_neg (by omega : ¬ z.toNat < x.toNat)]
              exact ih ys zs hab hbc

theorem charListLe_antisymm : ∀ (a b : List Char),
    charListLe a b = true → charListLe b a = true → a = b := by
  intro a
  induction a with
  | nil =>
    intro b _ hba
    cases b with
    | nil => rfl
    | cons y ys => simp [charListLe] at hba
  | cons x xs ih =>
    intro b hab hba
    cases b with
    | nil => simp [charListLe] at hab
    | cons y ys =>
      rw [charListLe] at hab hba
      by_cases h1 : x.toNat < y.toNat
      · rw [if_neg (by omega : ¬ y.toNat < x.toNat), if_pos h1] at hba
        exact absurd hba (by simp)
      · by_cases h2 : y.toNat < x.toNat
        · rw [if_neg h1, if_pos h2] at hab
          exact absurd hab (by simp)
        · rw [if_neg h1, if_neg h2] at hab
          rw [if_neg h2, if_neg h1] at hba
          have hx : x = y := Char.toNat_inj (by omega)
          rw [hx, ih ys hab hba]

theorem keyLe_total (a b : String) : keyLe a b = true ∨ keyLe b a = true :=
  charListLe_total a.data b.data

theorem keyLe_trans {a b c : String} (hab : keyLe a b = true) (hbc : keyLe b c = true) :
    keyLe a c = true :=
  charListLe_trans a.data b.data c.data hab hbc

theorem keyLe_antisymm {a b : String} (hab : keyLe a b = true) (hba : keyLe b a = true) :
    a = b :=
  String.ext (charListLe_antisymm a.data b.data hab hba)

instance : IsTotal (String × Json) fieldLe := ⟨fun p q => keyLe_total p.1 q.1⟩

instance : IsTrans (String × Json) fieldLe := ⟨fun _ _ _ => keyLe_trans⟩

mutual

/-- Canonical form: every object's fields sorted by key, recursively.
`deepEqual` is exactly equality of canonical forms. -/
def Json.canon : Json → Json
  | .arr xs => .arr (Json.canonList xs)
  | .obj fs => .obj (Json.canonFields (sortFieldsByKey fs))
  | v => v
termination_by a => Json.weight a
decreasing_by
  all_goals simp [Json.weight, Json.weightList, weightFields_sortFieldsByKey]

/-- Canonical form of an array's elements. -/
def Json.canonList : List Json → List Json
  | [] => []
  | x :: xs => Json.canon x :: Json.canonList xs
termination_by l => Json.weightList l
decreasing_by
  all_goals simp [Json.weightList]
  all_goals omega

/-- Canonical form of an object's field values. -/
def Json.canonFields : List (String × Json) → List (String × Json)
  | [] => []
  | (k, v) :: fs => (k, Json.canon v) :: Json.canonFields fs
termination_by l => Json.weightFields l
decreasing_by
  all_goals simp [Json.weightFields]
  all_goals omega

end

theorem Json.canonFields_eq_map (l : List (String × Json)) :
    Json.canonFields l = l.map (fun p => (p.1, Json.canon p.2)) := by
  induction l with
  | nil => simp [Json.canonFields]
  | cons p rest ih => cases p; simp [Json.canonFields, ih]

theorem Json.canonList_eq_map (l : List Json) :
    Json.canonList l = l.map Json.canon := by
  induction l with
  | nil => simp [Json.canonList]
  | cons x rest ih => simp [Json.canonList, ih]

/-- `deepEqual` decides equality of canonical forms. -/
theorem deepEqual_canon_bounded : ∀ n : ℕ,
    (∀ a b, Json.weight a + Json.weight b ≤ n →
      (deepEqual a b = true ↔ Json.canon a = Json.canon b)) ∧
    (∀ xs ys, Json.weightList xs + Json.weightList ys ≤ n →
      (deepEqualList xs ys = true ↔ Json.canonList xs = Json.canonList ys)) ∧
    (∀ fs gs, Json.weightFields fs + Json.weightFields gs ≤ n →
      (deepEqualFields fs gs = true ↔ Json.canonFields fs = Json.canonFields gs)) := by
  intro n
  induction n with
  | zero =>
    refine ⟨fun a b hab => absurd hab (by have := Json.weight_pos a; omega), ?_, ?_⟩
    · intro xs ys h
      cases xs with
      | nil =>
        cases ys with
        | nil => simp [deepEqualList, Json.canonList]
        | cons y ys' => simp [Json.weightList] at h
      | cons x xs' => simp [Json.weightList] at h
    · intro fs gs h
      cases fs with
      | nil =>
        cases gs with
        | nil => simp [deepEqualFields, Json.canonFields]
        | cons q gs' => obtain ⟨k, v⟩ := q; simp [Json.weightFields] at h
      | cons p fs' => obtain ⟨k, v⟩ := p; simp [Json.weightFields] at h
  | succ n ih =>
    obtain ⟨ihV, ihL, ihF⟩ := ih
    refine ⟨?_, ?_, ?_⟩
    · intro a b hab
      cases a with
      | null => cases b <;> simp [deepEqual, Json.canon]
      | bool x => cases b <;> simp [deepEqual, Json.canon]
      | num x => cases b <;> simp [deepEqual, Json.canon]
      | str x => cases b <;> simp [deepEqual, Json.canon]
      | arr xs =>
        cases b with
        | arr ys =>
          simp only [deepEqual, Json.canon, Json.arr.injEq]
          exact ihL xs ys (by simp [Json.weight] at hab; omega)
        | null => simp [deepEqual, Json.canon]
        | bool y => simp [deepEqual, Json.canon]
        | num y => simp [deepEqual, Json.canon]
        | str y => simp [deepEqual, Json.canon]
        | obj gs => simp [deepEqual, Json.canon]
      | obj fs =>
        cases b with
        | obj gs =>
          simp only [deepEqual, Json.canon, Json.obj.injEq]
          exact ihF (sortFieldsByKey fs) (sortFieldsByKey gs)
            (by rw [weightFields_sortFieldsByKey, weightFields_sortFieldsByKey]
                simp [Json.weight] at hab; omega)
        | null => simp [deepEqual, Json.canon]
        | bool y => simp [deepEqual, Json.canon]
        | num y => simp [deepEqual, Json.canon]
        | str y => simp [deepEqual, Json.canon]
        | arr ys => simp [deepEqual, Json.canon]
    · intro xs ys h
      cases xs with
      | nil => cases ys <;> simp [deepEqualList, Json.canonList]
      | cons x xs' =>
        cases ys with
        | nil => simp [deepEqualList, Json.canonList]
        | cons y ys' =>
          simp only [deepEqualList, Json.canonList, Bool.and_eq_true, List.cons.injEq]
          simp only [Json.weightList] at h
          exact and_congr (ihV x y (by omega)) (ihL xs' ys' (by omega))
    · intro fs gs h
      cases fs with
      | nil =>
        cases gs with
        | nil => simp [deepEqualFields, Json.canonFields]
        | cons q gs' => obtain ⟨k2, v2⟩ := q; simp [deepEqualFields, Json.canonFields]
      | cons p fs' =>
        obtain ⟨k1, v1⟩ := p
        cases gs with
        | nil => simp [deepEqualFields, Json.canonFields]
        | cons q gs' =>
          obtain ⟨k2, v2⟩ := q
          simp only [deepEqualFields, Json.canonFields, Bool.and_eq_true, List.cons.injEq,
            Prod.mk.injEq, beq_iff_eq]
          simp only [Json.weightFields] at h
          exact and_congr (and_congr Iff.rfl (ihV v1 v2 (by omega)))
            (ihF fs' gs' (by omega))

/-- `deepEqual` as canonical equality. -/
theorem deepEqual_iff_canon (a b : Json) :
    deepEqual a b = true ↔ Json.canon a = Json.canon b :=
  (deepEqual_canon_bounded (Json.weight a + Json.weight b)).1 a b le_rfl

/-- `deepEqualOpt` as canonical equality of optional values. -/
theorem deepEqualOpt_iff_canon (u v : Option Json) :
    deepEqualOpt u v = true ↔ u.map Json.canon = v.map Json.canon := by
  cases u <;> cases v <;>
    simp [deepEqualOpt, deepEqual_iff_canon]

mutual

/-- Recursive key permutation: `KeyPerm a b` holds when `b` is `a` with
the fields of each (nested) object permuted. -/
inductive KeyPerm : Json → Json → Prop where
  | null : KeyPerm .null .null
  | bool (b : Bool) : KeyPerm (.bool b) (.bool b)
  | num (q : ℚ) : KeyPerm (.num q) (.num q)
  | str (s : String) : KeyPerm (.str s) (.str s)
  | arr {xs ys : List Json} : KeyPermList xs ys → KeyPerm (.arr xs) (.arr ys)
  | obj {fa fm fb : List (String × Json)} :
      KeyPermFields fa fm → fm.Perm fb → KeyPerm (.obj fa) (.obj fb)

/-- Pointwise key permutation of array elements. -/
inductive KeyPermList : List Json → List Json → Prop where
  | nil : KeyPermList [] []
  | cons {x y xs ys} : KeyPerm x y → KeyPermList xs ys → KeyPermList (x :: xs) (y :: ys)

/-- Pointwise transformation of field values (same keys, same order). -/
inductive KeyPermFields : List (String × Json) → List (String × Json) → Prop where
  | nil : KeyPermFields [] []
  | cons {k v w fs gs} : KeyPerm v w → KeyPermFields fs gs →
      KeyPermFields ((k, v) :: fs) ((k, w) :: gs)

end

mutual

/-- Well-formedness: objects (recursively) have pairwise-distinct keys,
as all values produced by `JSON.parse` do. -/
inductive JsonWF : Json → Prop where
  | null : JsonWF .null
  | bool (b : Bool) : JsonWF (.bool b)
  | num (q : ℚ) : JsonWF (.num q)
  | str (s : String) : JsonWF (.str s)
  | arr {xs : List Json} : JsonWFList xs → JsonWF (.arr xs)
  | obj {fs : List (String × Json)} : (objKeys fs).Nodup → JsonWFFields fs → JsonWF (.obj fs)

/-- Well-formedness of array elements. -/
inductive JsonWFList : List Json → Prop where
  | nil : JsonWFList []
  | cons {x xs} : JsonWF x → JsonWFList xs → JsonWFList (x :: xs)

/-- Well-formedness of field values. -/
inductive JsonWFFields : List (String × Json) → Prop where
  | nil : JsonWFFields []
  | cons {k v fs} : JsonWF v → JsonWFFields fs → JsonWFFields ((k, v) :: fs)

end

/-- Reflexivity of `KeyPerm` (with list and field variants). -/
theorem keyPerm_refl_bounded : ∀ n : ℕ,
    (∀ a, Json.weight a ≤ n → KeyPerm a a) ∧
    (∀ xs, Json.weightList xs ≤ n → KeyPermList xs xs) ∧
    (∀ fs, Json.weightFields fs ≤ n → KeyPermFields fs fs) := by
  intro n
  induction n with
  | zero =>
    refine ⟨fun a ha => absurd ha (by have := Json.weight_pos a; omega), ?_, ?_⟩
    · intro xs hx
      cases xs with
      | nil => exact KeyPermList.nil
      | cons x rest => simp [Json.weightList] at hx
    · intro fs hf
      cases fs with
      | nil => exact KeyPermFields.nil
      | cons p rest => obtain ⟨k, v⟩ := p; simp [Json.weightFields] at hf
  | succ n ih =>
    obtain ⟨ihV, ihL, ihF⟩ := ih
    refine ⟨?_, ?_, ?_⟩
    · intro a ha
      cases a with
      | null => exact KeyPerm.null
      | bool b => exact KeyPerm.bool b
      | num q => exact KeyPerm.num q
      | str s => exact KeyPerm.str s
      | arr xs => exact KeyPerm.arr (ihL xs (by simp [Json.weight] at ha; omega))
      | obj fs =>
        exact KeyPerm.obj (ihF fs (by simp [Json.weight] at ha; omega)) (List.Perm.refl fs)
    · intro xs hx
      cases xs with
      | nil => exact KeyPermList.nil
      | cons x rest =>
        simp only [Json.weightList] at hx
        exact KeyPermList.cons (ihV x (by omega)) (ihL rest (by omega))
    · intro fs hf
      cases fs with
      | nil => exact KeyPermFields.nil
      | cons p rest =>
        obtain ⟨k, v⟩ := p
        simp only [Json.weightFields] at hf
        exact KeyPermFields.cons (ihV v (by omega)) (ihF rest (by omega))

theorem keyPerm_refl (a : Json) : KeyPerm a a :=
  (keyPerm_refl_bounded (Json.weight a)).1 a le_rfl

theorem keyPermFields_refl (fs : List (String × Json)) : KeyPermFields fs fs :=
  (keyPerm_refl_bounded (Json.weightFields fs)).2.2 fs le_rfl

/-- Pointwise field transformation preserves lengths and keys. -/
theorem keyPermFields_keys : ∀ {fs gs}, KeyPermFields fs gs → objKeys fs = objKeys gs := by
  intro fs
  induction fs with
  | nil => intro gs h; cases h; rfl
  | cons p rest ih =>
    intro gs h
    cases h with
    | cons hv hrest => simp only [objKeys, List.map_cons]; rw [← objKeys, ← objKeys, ih hrest]

theorem keyPermList_length : ∀ {xs ys}, KeyPermList xs ys → xs.length = ys.length := by
  intro xs
  induction xs with
  | nil => intro ys h; cases h; rfl
  | cons x rest ih =>
    intro ys h
    cases h with
    | cons hv hrest => simp [ih hrest]

theorem keyPermFields_length : ∀ {fs gs}, KeyPermFields fs gs → fs.length = gs.length := by
  intro fs
  induction fs with
  | nil => intro gs h; cases h; rfl
  | cons p rest ih =>
    intro gs h
    cases h with
    | cons hv hrest => simp [ih hrest]

/-- Strict field order: key order plus distinct keys. -/
def fieldLt (p q : String × Json) : Prop := fieldLe p q ∧ p.1 ≠ q.1

instance : IsAntisymm (String × Json) fieldLt :=
  ⟨fun _ _ hab hba => absurd (keyLe_antisymm hab.1 hba.1) hab.2⟩

theorem canonFields_perm {l1 l2 : List (String × Json)} (h : l1.Perm l2) :
    (Json.canonFields l1).Perm (Json.canonFields l2) := by
  rw [Json.canonFields_eq_map, Json.canonFields_eq_map]
  exact h.map _

theorem canonFields_keys (l : List (String × Json)) :
    objKeys (Json.canonFields l) = objKeys l := by
  rw [Json.canonFields_eq_map]
  simp [objKeys]

theorem pairwise_fieldLt_of_le_nodup {l : List (String × Json)}
    (hs : List.Pairwise fieldLe l) (hn : (objKeys l).Nodup) :
    List.Pairwise fieldLt l := by
  have hne : List.Pairwise (fun p q : String × Json => p.1 ≠ q.1) l :=
    List.pairwise_map.mp hn
  exact hs.and hne

/-- Canonically mapping then sorting is key-order invariant: two lists
with duplicate-free keys whose canonical fields are permutations of each
other have equal canonical sorted fields. -/
theorem canonFields_sort_eq {l1 l2 : List (String × Json)}
    (hperm : (Json.canonFields l1).Perm (Json.canonFields l2))
    (hn1 : (objKeys l1).Nodup) (hn2 : (objKeys l2).Nodup) :
    Json.canonFields (sortFieldsByKey l1) = Json.canonFields (sortFieldsByKey l2) := by
  have hsorted : ∀ (l : List (String × Json)), (objKeys l).Nodup →
      List.Pairwise fieldLt (Json.canonFields (sortFieldsByKey l)) := by
    intro l hn
    apply pairwise_fieldLt_of_le_nodup
    · have hs : List.Pairwise fieldLe (sortFieldsByKey l) :=
        List.sorted_insertionSort fieldLe l
      rw [Json.canonFields_eq_map, List.pairwise_map]
      exact hs.imp (fun h => h)
    · rw [canonFields_keys]
      have hp : (objKeys (sortFieldsByKey l)).Perm (objKeys l) :=
        (List.perm_insertionSort fieldLe l).map Prod.fst
      exact hp.symm.nodup hn
  have hpermS : (Json.canonFields (sortFieldsByKey l1)).Perm
      (Json.canonFields (sortFieldsByKey l2)) :=
    ((canonFields_perm (List.perm_insertionSort fieldLe l1)).trans hperm).trans
      (canonFields_perm (List.perm_insertionSort fieldLe l2)).symm
  exact List.eq_of_perm_of_sorted hpermS (hsorted l1 hn1) (hsorted l2 hn2)

/-- On well-formed values, recursive key permutation preserves the
canonical form. -/
theorem canon_keyPerm_bounded : ∀ n : ℕ,
    (∀ a b, Json.weight a ≤ n → JsonWF a → KeyPerm a b → Json.canon a = Json.canon b) ∧
    (∀ xs ys, Json.weightList xs ≤ n → JsonWFList xs → KeyPermList xs ys →
      Json.canonList xs = Json.canonList ys) ∧
    (∀ fs gs, Json.weightFields fs ≤ n → JsonWFFields fs → KeyPermFields fs gs →
      Json.canonFields fs = Json.canonFields gs) := by
  intro n
  induction n with
  | zero =>
    refine ⟨fun a b ha => absurd ha (by have := Json.weight_pos a; omega), ?_, ?_⟩
    · intro xs ys hx _ hkp
      cases xs with
      | nil => cases hkp; rfl
      | cons x rest => simp [Json.weightList] at hx
    · intro fs gs hf _ hkp
      cases fs with
      | nil => cases hkp; rfl
      | cons p rest => obtain ⟨k, v⟩ := p; simp [Json.weightFields] at hf
  | succ n ih =>
    obtain ⟨ihV, ihL, ihF⟩ := ih
    refine ⟨?_, ?_, ?_⟩
    · intro a b ha hwf hkp
      cases hkp with
      | null => rfl
      | bool b => rfl
      | num q => rfl
      | str s => rfl
      | arr hl =>
        cases hwf with
        | arr hwl =>
          simp only [Json.canon, Json.arr.injEq]
          exact ihL _ _ (by simp [Json.weight] at ha; omega) hwl hl
      | obj hpt hperm =>
        cases hwf with
        | obj hnodup hwfields =>
          simp only [Json.canon, Json.obj.injEq]
          have hfa_fm : Json.canonFields _ = Json.canonFields _ :=
            ihF _ _ (by simp [Json.weight] at ha; omega) hwfields hpt
          apply canonFields_sort_eq
          · rw [hfa_fm]
            exact canonFields_perm hperm
          · exact hnodup
          · have hkeys1 := keyPermFields_keys hpt
            have hkeys2 : (objKeys _).Perm (objKeys _) := hperm.map Prod.fst
            rw [← hkeys1] at hkeys2
            exact hkeys2.nodup hnodup
    · intro xs ys hx hwl hkp
      cases hkp with
      | nil => rfl
      | cons hv hrest =>
        cases hwl with
        | cons hw hwrest =>
          simp only [Json.weightList] at hx
          simp only [Json.canonList, List.cons.injEq]
          exact ⟨ihV _ _ (by omega) hw hv, ihL _ _ (by omega) hwrest hrest⟩
    · intro fs gs hf hwf hkp
      cases hkp with
      | nil => rfl
      | cons hv hrest =>
        cases hwf with
        | cons hw hwrest =>
          simp only [Json.weightFields] at hf
          simp only [Json.canonFields, List.cons.injEq, Prod.mk.injEq]
          exact ⟨⟨trivial, ihV _ _ (by omega) hw hv⟩, ihF _ _ (by omega) hwrest hrest⟩

/-- Canonical forms are invariant under recursive key permutation of
well-formed values. -/
theorem canon_keyPerm {a b : Json} (hwf : JsonWF a) (hkp : KeyPerm a b) :
    Json.canon a = Json.canon b :=
  (canon_keyPerm_bounded (Json.weight a)).1 a b le_rfl hwf hkp

/-- Pointwise field transformation transports first-match lookup. -/
theorem getField_keyPermFields : ∀ {fs gs}, KeyPermFields fs gs → ∀ k,
    Option.Rel KeyPerm (getField fs k) (getField gs k) := by
  intro fs
  induction fs with
  | nil => intro gs h k; cases h; exact Option.Rel.none
  | cons p rest ih =>
    intro gs h k
    obtain ⟨k', v⟩ := p
    cases h with
    | cons hv hrest =>
      simp only [getField_cons]
      by_cases he : k' = k
      · rw [if_pos he, if_pos he]
        exact Option.Rel.some hv
      · rw [if_neg he, if_neg he]
        exact ih hrest k

/-- With duplicate-free keys, first-match lookup is invariant under
permutation of the field list. -/
theorem getField_perm : ∀ {fs gs : List (String × Json)}, fs.Perm gs →
    (objKeys fs).Nodup → ∀ k, getField fs k = getField gs k := by
  intro fs gs hperm
  induction hperm with
  | nil => intro _ _; rfl
  | cons x _ ih =>
    intro hn k
    obtain ⟨k', v⟩ := x
    simp only [getField_cons]
    by_cases he : k' = k
    · rw [if_pos he, if_pos he]
    · rw [if_neg he, if_neg he]
      exact ih (by simp [objKeys] at hn ⊢; exact hn.2) k
  | swap x y l =>
    intro hn k
    obtain ⟨k1, v1⟩ := x
    obtain ⟨k2, v2⟩ := y
    simp only [objKeys, List.map_cons, List.nodup_cons, List.mem_cons, List.mem_map] at hn
    simp only [getField_cons]
    by_cases h2 : k2 = k <;> by_cases h1 : k1 = k <;> simp [h1, h2]
    exact absurd (h2.trans h1.symm) (fun he => hn.1 (Or.inl he))
  | trans h12 h23 ih12 ih23 =>
    intro hn k
    rw [ih12 hn k]
    exact ih23 ((h12.map Prod.fst).nodup hn) k

/-- Values reachable by property read from a well-formed value are
well-formed. -/
theorem getField_WF : ∀ {fs : List (String × Json)}, JsonWFFields fs →
    ∀ {k v}, getField fs k = some v → JsonWF v := by
  intro fs
  induction fs with
  | nil => intro h k v hv; simp [getField] at hv
  | cons p rest ih =>
    intro h k v hv
    obtain ⟨k', w⟩ := p
    cases h with
    | cons hw hrest =>
      rw [getField_cons] at hv
      by_cases he : k' = k
      · rw [if_pos he] at hv
        cases hv
        exact hw
      · rw [if_neg he] at hv
        exact ih hrest hv

theorem jsonWFList_mem : ∀ {xs : List Json}, JsonWFList xs → ∀ {x}, x ∈ xs → JsonWF x := by
  intro xs
  induction xs with
  | nil => intro _ x hx; simp at hx
  | cons y rest ih =>
    intro h x hx
    cases h with
    | cons hw hrest =>
      rcases List.mem_cons.mp hx with rfl | hx
      · exact hw
      · exact ih hrest hx

/-- The payload of an enumerated entry is a member of the list. -/
theorem mem_of_mem_enumFrom : ∀ {α : Type} (l : List α) (n : ℕ) (p : ℕ × α),
    p ∈ List.enumFrom n l → p.2 ∈ l := by
  intro α l
  induction l with
  | nil => intro n p hp; simp at hp
  | cons x rest ih =>
    intro n p hp
    rw [List.enumFrom_cons] at hp
    rcases List.mem_cons.mp hp with rfl | hp
    · simp
    · exact List.mem_cons_of_mem _ (ih (n + 1) p hp)

theorem jsGet_WF {a : Json} (hwf : JsonWF a) {k v} (hv : jsGet a k = some v) : JsonWF v := by
  cases a with
  | obj fs =>
    cases hwf with
    | obj hn hf => exact getField_WF hf hv
  | arr xs =>
    cases hwf with
    | arr hl =>
      simp only [jsGet, Option.map_eq_some'] at hv
      obtain ⟨p, hp, rfl⟩ := hv
      have hpm := List.mem_of_find?_eq_some hp
      exact jsonWFList_mem hl (mem_of_mem_enumFrom xs 0 p (by simpa [List.enum] using hpm))
  | null => simp [jsGet] at hv
  | bool b => simp [jsGet] at hv
  | num q => simp [jsGet] at hv
  | str s => simp [jsGet] at hv

/-- Property reads transport along key permutation of a well-formed
value. -/
theorem jsGet_keyPerm : ∀ {a b : Json}, JsonWF a → KeyPerm a b → ∀ k,
    Option.Rel KeyPerm (jsGet a k) (jsGet b k) := by
  intro a b hwf hkp k
  cases hkp with
  | null => exact Option.Rel.none
  | bool b => exact Option.Rel.none
  | num q => exact Option.Rel.none
  | str s => exact Option.Rel.none
  | arr hl =>
    rename_i xs ys
    simp only [jsGet, List.enum]
    have haux : ∀ (xs ys : List Json), KeyPermList xs ys → ∀ n,
        Option.Rel (fun p q : ℕ × Json => p.1 = q.1 ∧ KeyPerm p.2 q.2)
          ((List.enumFrom n xs).find? (fun p => toString p.1 = k))
          ((List.enumFrom n ys).find? (fun p => toString p.1 = k)) := by
      intro xs
      induction xs with
      | nil => intro ys h n; cases h; exact Option.Rel.none
      | cons x rest ih =>
        intro ys h n
        cases h with
        | cons hv hrest =>
          rw [List.enumFrom_cons, List.enumFrom_cons]
          by_cases hc : toString n = k
          · rw [List.find?_cons_of_pos _ (by simpa using hc),
              List.find?_cons_of_pos _ (by simpa using hc)]
            exact Option.Rel.some ⟨rfl, hv⟩
          · rw [List.find?_cons_of_neg _ (by simpa using hc),
              List.find?_cons_of_neg _ (by simpa using hc)]
            exact ih _ hrest (n + 1)
    have h0 := haux xs ys hl 0
    revert h0
    generalize (List.enumFrom 0 xs).find? (fun p => toString p.1 = k) = u
    generalize (List.enumFrom 0 ys).find? (fun p => toString p.1 = k) = v
    intro h0
    cases h0 with
    | none => exact Option.Rel.none
    | some hpq => exact Option.Rel.some hpq.2
  | obj hpt hperm =>
    rename_i fa fm fb
    cases hwf with
    | obj hn hf =>
      simp only [jsGet]
      have h1 := getField_keyPermFields hpt k
      have h2 : getField fm k = getField fb k :=
        getField_perm hperm (by rw [← keyPermFields_keys hpt]; exact hn) k
      rw [← h2]
      exact h1

/-- `jsKeys` is permuted accordingly. -/
theorem jsKeys_keyPerm {a b : Json} (hkp : KeyPerm a b) : (jsKeys a).Perm (jsKeys b) := by
  cases hkp with
  | null => exact List.Perm.refl _
  | bool b => exact List.Perm.refl _
  | num q => exact List.Perm.refl _
  | str s => exact List.Perm.refl _
  | arr hl =>
    simp only [jsKeys]
    rw [keyPermList_length hl]
  | obj hpt hperm =>
    simp only [jsKeys]
    rw [keyPermFields_keys hpt]
    exact hperm.map Prod.fst

/-- Key permutation preserves the runtime type. -/
theorem isTruthyObject_keyPerm {a b : Json} (hkp : KeyPerm a b) :
    isTruthyObject a = isTruthyObject b := by
  cases hkp <;> rfl

/-- Summarization commutes with key permutation. -/
theorem summarizeValue_keyPerm {v w : Json} (hkp : KeyPerm v w) :
    KeyPerm (summarizeValue v) (summarizeValue w) := by
  cases hkp with
  | null => exact KeyPerm.null
  | bool b => exact keyPerm_refl _
  | num q => exact keyPerm_refl _
  | str s => exact keyPerm_refl _
  | arr hl =>
    rename_i xs ys
    have hlen := keyPermList_length hl
    simp only [summarizeValue, hlen]
    by_cases hle : ys.length ≤ 20
    · rw [if_pos hle, if_pos hle]
      exact KeyPerm.arr hl
    · rw [if_neg hle, if_neg hle]
      exact keyPerm_refl _
  | obj hpt hperm =>
    rename_i fa fm fb
    have hlen : fa.length = fb.length := by
      rw [keyPermFields_length hpt, hperm.length_eq]
    simp only [summarizeValue, objKeys, List.length_map, hlen]
    by_cases hle : fb.length ≤ 30
    · rw [if_pos hle, if_pos hle]
      exact KeyPerm.obj hpt hperm
    · rw [if_neg hle, if_neg hle]
      exact keyPerm_refl _

/-- Membership in the Set-union fold. -/
theorem mem_unionKeys_aux : ∀ (l acc : List String) (x : String),
    x ∈ l.foldl (fun l x => if x ∈ l then l else l ++ [x]) acc ↔ x ∈ acc ∨ x ∈ l := by
  intro l
  induction l with
  | nil => intro acc x; simp
  | cons y rest ih =>
    intro acc x
    rw [List.foldl_cons, ih]
    by_cases hy : y ∈ acc
    · rw [if_pos hy]
      constructor
      · rintro (h | h)
        · exact Or.inl h
        · exact Or.inr (List.mem_cons_of_mem _ h)
      · rintro (h | h)
        · exact Or.inl h
        · rcases List.mem_cons.mp h with rfl | h
          · exact Or.inl hy
          · exact Or.inr h
    · rw [if_neg hy]
      simp only [List.mem_append, List.mem_singleton, List.mem_cons]
      tauto

/-- The Set-union fold preserves duplicate-freedom. -/
theorem nodup_unionKeys_aux : ∀ (l acc : List String), acc.Nodup →
    (l.foldl (fun l x => if x ∈ l then l else l ++ [x]) acc).Nodup := by
  intro l
  induction l with
  | nil => intro acc h; simpa using h
  | cons y rest ih =>
    intro acc h
    rw [List.foldl_cons]
    by_cases hy : y ∈ acc
    · rw [if_pos hy]
      exact ih acc h
    · rw [if_neg hy]
      apply ih
      rw [List.nodup_append]
      exact ⟨h, List.nodup_singleton y, by simpa using hy⟩

theorem mem_unionKeys (ka kb : List String) (x : String) :
    x ∈ unionKeys ka kb ↔ x ∈ ka ∨ x ∈ kb := by
  rw [unionKeys, mem_unionKeys_aux]
  simp

theorem nodup_unionKeys (ka kb : List String) : (unionKeys ka kb).Nodup :=
  nodup_unionKeys_aux _ [] List.nodup_nil

/-- Canonical forms of related optional values coincide on well-formed
contents. -/
theorem optionCanon_eq {u v : Option Json} (h : Option.Rel KeyPerm u v)
    (hwf : ∀ x, u = some x → JsonWF x) : u.map Json.canon = v.map Json.canon := by
  cases h with
  | none => rfl
  | some hpq => simp [Json.canon, canon_keyPerm (hwf _ rfl) hpq]

/-- Summarization lifted to optional values. -/
theorem optionSummarize_rel {u v : Option Json} (h : Option.Rel KeyPerm u v) :
    Option.Rel KeyPerm (u.map summarizeValue) (v.map summarizeValue) := by
  cases h with
  | none => exact Option.Rel.none
  | some hpq => exact Option.Rel.some (summarizeValue_keyPerm hpq)

/-- Pointwise-related filter maps are `Forall₂`-related. -/
theorem filterMap_rel {α β : Type} (f f' : α → Option β) (R : β → β → Prop)
    (h : ∀ k, Option.Rel R (f k) (f' k)) :
    ∀ K : List α, List.Forall₂ R (K.filterMap f) (K.filterMap f') := by
  intro K
  induction K with
  | nil => exact List.Forall₂.nil
  | cons k rest ih =>
    have hk := h k
    cases hfk : f k with
    | none =>
      cases hfk' : f' k with
      | none =>
        simp only [List.filterMap_cons, hfk, hfk']
        exact ih
      | some q =>
        rw [hfk, hfk'] at hk
        cases hk
    | some p =>
      cases hfk' : f' k with
      | none =>
        rw [hfk, hfk'] at hk
        cases hk
      | some q =>
        rw [hfk, hfk'] at hk
        simp only [List.filterMap_cons, hfk, hfk']
        cases hk with
        | some hpq => exact List.Forall₂.cons hpq ih

/-- Entry relation between corresponding diff outputs: same key, and
from/to values equal up to recursive key permutation. -/
def DiffEntryRel (p q : String × Option Json × Option Json) : Prop :=
  p.1 = q.1 ∧ Option.Rel KeyPerm p.2.1 q.2.1 ∧ Option.Rel KeyPerm p.2.2 q.2.2

/-- The per-key diff results of key-permuted inputs are pointwise
related. -/
theorem diffEntry_keyPerm {a a' b b' : Json} (hwa : JsonWF a) (hwb : JsonWF b)
    (ha : KeyPerm a a') (hb : KeyPerm b b') (k : String) :
    Option.Rel DiffEntryRel (diffEntry a b k) (diffEntry a' b' k) := by
  have hga := jsGet_keyPerm hwa ha k
  have hgb := jsGet_keyPerm hwb hb k
  have hca : (jsGet a k).map Json.canon = (jsGet a' k).map Json.canon :=
    optionCanon_eq hga (fun _ hx => jsGet_WF hwa hx)
  have hcb : (jsGet b k).map Json.canon = (jsGet b' k).map Json.canon :=
    optionCanon_eq hgb (fun _ hx => jsGet_WF hwb hx)
  have hIff : deepEqualOpt (jsGet a k) (jsGet b k) = true ↔
      deepEqualOpt (jsGet a' k) (jsGet b' k) = true := by
    rw [deepEqualOpt_iff_canon, deepEqualOpt_iff_canon, hca, hcb]
  have hEq : deepEqualOpt (jsGet a k) (jsGet b k) =
      deepEqualOpt (jsGet a' k) (jsGet b' k) := by
    cases h1 : deepEqualOpt (jsGet a k) (jsGet b k) <;>
      cases h2 : deepEqualOpt (jsGet a' k) (jsGet b' k) <;> simp_all
  rw [diffEntry, diffEntry]
  simp only [hEq]
  by_cases hcond : deepEqualOpt (jsGet a' k) (jsGet b' k) = true
  · rw [if_pos hcond, if_pos hcond]
    exact Option.Rel.none
  · rw [if_neg hcond, if_neg hcond]
    exact Option.Rel.some ⟨rfl, optionSummarize_rel hga, optionSummarize_rel hgb⟩

/-- C8 amended: permuting the keys of either input (recursively) leaves
the diff output unchanged up to the order of its entries and up to the
corresponding key permutations inside the reported values: there is a
reordering of `diffTopLevel a b` that matches `diffTopLevel a' b'` key
for key, with from/to values equal up to recursive key permutation. -/
theorem diffTopLevel_keyPerm (a a' b b' : Json) (hwa : JsonWF a) (hwb : JsonWF b)
    (ha : KeyPerm a a') (hb : KeyPerm b b') :
    ∃ om, (diffTopLevel a b).Perm om ∧
      List.Forall₂ DiffEntryRel om (diffTopLevel a' b') := by
  rw [diffTopLevel, diffTopLevel]
  by_cases htr : (isTruthyObject a && isTruthyObject b) = true
  · have htr' : (isTruthyObject a' && isTruthyObject b') = true := by
      rw [← isTruthyObject_keyPerm ha, ← isTruthyObject_keyPerm hb]
      exact htr
    rw [if_pos htr, if_pos htr']
    have hKa := jsKeys_keyPerm ha
    have hKb := jsKeys_keyPerm hb
    have hK : (unionKeys (jsKeys a) (jsKeys b)).Perm (unionKeys (jsKeys a') (jsKeys b')) := by
      rw [List.perm_ext_iff_of_nodup (nodup_unionKeys _ _) (nodup_unionKeys _ _)]
      intro x
      rw [mem_unionKeys, mem_unionKeys, hKa.mem_iff, hKb.mem_iff]
    refine ⟨(unionKeys (jsKeys a') (jsKeys b')).filterMap (diffEntry a b),
      List.Perm.filterMap _ hK, ?_⟩
    exact filterMap_rel _ _ DiffEntryRel (diffEntry_keyPerm hwa hwb ha hb) _
  · have htr' : ¬ (isTruthyObject a' && isTruthyObject b') = true := by
      rw [← isTruthyObject_keyPerm ha, ← isTruthyObject_keyPerm hb]
      exact htr
    rw [if_neg htr, if_neg htr']
    exact ⟨[], List.Perm.refl [], List.Forall₂.nil⟩

/-- C8 counterexample: permuting keys (at the top level and inside a
nested value) of the first input changes the diff output as a value: the
entry order flips and the reported nested from-value carries the
permuted key order.  The projection to entry keys and from-value key
lists already distinguishes the two outputs. -/
theorem diffTopLevel_keyPerm_counterexample :
    KeyPerm
      (Json.obj [("x", Json.num 1), ("w", Json.obj [("p", Json.num 1), ("q", Json.num 2)])])
      (Json.obj [("w", Json.obj [("q", Json.num 2), ("p", Json.num 1)]), ("x", Json.num 1)]) ∧
    (diffTopLevel
        (Json.obj [("w", Json.obj [("q", Json.num 2), ("p", Json.num 1)]), ("x", Json.num 1)])
        (Json.obj [("x", Json.num 2), ("w", Json.obj [("p", Json.num 1), ("q", Json.num 3)])])).map
          (fun e => (e.1, e.2.1.map jsKeys)) ≠
      (diffTopLevel
        (Json.obj [("x", Json.num 1), ("w", Json.obj [("p", Json.num 1), ("q", Json.num 2)])])
        (Json.obj [("x", Json.num 2), ("w", Json.obj [("p", Json.num 1), ("q", Json.num 3)])])).map
          (fun e => (e.1, e.2.1.map jsKeys)) := by
  constructor
  · refine KeyPerm.obj
      ?_ (List.Perm.swap ("w", Json.obj [("q", Json.num 2), ("p", Json.num 1)]) ("x", Json.num 1) [])
    refine KeyPermFields.cons (KeyPerm.num 1) (KeyPermFields.cons ?_ KeyPermFields.nil)
    exact KeyPerm.obj (keyPermFields_refl _)
      (List.Perm.swap ("q", Json.num 2) ("p", Json.num 1) [])
  · have h1 : diffTopLevel
        (Json.obj [("x", Json.num 1), ("w", Json.obj [("p", Json.num 1), ("q", Json.num 2)])])
        (Json.obj [("x", Json.num 2), ("w", Json.obj [("p", Json.num 1), ("q", Json.num 3)])]) =
        [("x", some (Json.num 1), some (Json.num 2)),
         ("w", some (Json.obj [("p", Json.num 1), ("q", Json.num 2)]),
           some (Json.obj [("p", Json.num 1), ("q", Json.num 3)]))] := by
      simp [diffTopLevel, diffEntry, unionKeys, jsKeys, objKeys, jsGet, getField, deepEqualOpt,
        deepEqual, deepEqualFields, sortFieldsByKey, List.insertionSort, List.orderedInsert,
        fieldLe, keyLe, charListLe, summarizeValue, isTruthyObject, truncate, jsLength]
    have h2 : diffTopLevel
        (Json.obj [("w", Json.obj [("q", Json.num 2), ("p", Json.num 1)]), ("x", Json.num 1)])
        (Json.obj [("x", Json.num 2), ("w", Json.obj [("p", Json.num 1), ("q", Json.num 3)])]) =
        [("w", some (Json.obj [("q", Json.num 2), ("p", Json.num 1)]),
           some (Json.obj [("p", Json.num 1), ("q", Json.num 3)])),
         ("x", some (Json.num 1), some (Json.num 2))] := by
      simp [diffTopLevel, diffEntry, unionKeys, jsKeys, objKeys, jsGet, getField, deepEqualOpt,
        deepEqual, deepEqualFields, sortFieldsByKey, List.insertionSort, List.orderedInsert,
        fieldLe, keyLe, charListLe, summarizeValue, isTruthyObject, truncate, jsLength]
    rw [h1, h2]
    decide

/-- C8 witness for the amended statement: the same key-permuted pair,
with the relation between the two outputs exhibited. -/
theorem diffTopLevel_keyPerm_witness :
    ∃ om, (diffTopLevel
        (Json.obj [("x", Json.num 1), ("w", Json.obj [("p", Json.num 1), ("q", Json.num 2)])])
        (Json.obj [("x", Json.num 2), ("w", Json.obj [("p", Json.num 1), ("q", Json.num 3)])])).Perm om ∧
      List.Forall₂ DiffEntryRel om
        (diffTopLevel
          (Json.obj [("w", Json.obj [("q", Json.num 2), ("p", Json.num 1)]), ("x", Json.num 1)])
          (Json.obj [("x", Json.num 2), ("w", Json.obj [("p", Json.num 1), ("q", Json.num 3)])])) :=
  diffTopLevel_keyPerm
    (Json.obj [("x", Json.num 1), ("w", Json.obj [("p", Json.num 1), ("q", Json.num 2)])])
    (Json.obj [("w", Json.obj [("q", Json.num 2), ("p", Json.num 1)]), ("x", Json.num 1)])
    (Json.obj [("x", Json.num 2), ("w", Json.obj [("p", Json.num 1), ("q", Json.num 3)])])
    (Json.obj [("x", Json.num 2), ("w", Json.obj [("p", Json.num 1), ("q", Json.num 3)])])
    (JsonWF.obj (by decide)
      (JsonWFFields.cons (JsonWF.num 1)
        (JsonWFFields.cons (JsonWF.obj (by decide)
          (JsonWFFields.cons (JsonWF.num 1)
            (JsonWFFields.cons (JsonWF.num 2) JsonWFFields.nil)))
          JsonWFFields.nil)))
    (JsonWF.obj (by decide)
      (JsonWFFields.cons (JsonWF.num 2)
        (JsonWFFields.cons (JsonWF.obj (by decide)
          (JsonWFFields.cons (JsonWF.num 1)
            (JsonWFFields.cons (JsonWF.num 3) JsonWFFields.nil)))
          JsonWFFields.nil)))
    (KeyPerm.obj
      (KeyPermFields.cons (KeyPerm.num 1)
        (KeyPermFields.cons
          (KeyPerm.obj (keyPermFields_refl _)
            (List.Perm.swap ("q", Json.num 2) ("p", Json.num 1) []))
          KeyPermFields.nil))
      (List.Perm.swap ("w", Json.obj [("q", Json.num 2), ("p", Json.num 1)]) ("x", Json.num 1) []))
    (keyPerm_refl _)
